import Mathlib

/-!
Shallow embedding of `src/source/src/vector.h`: a raw-storage cell (`RawMemory`)
plus a sequence container (`Vector`) built on it.

Modelling conventions:

* A buffer is a function `Nat → Cell α`; a cell is either `raw` (uninitialized
  storage) or `live v` (a constructed element).  Element values are `MVal α`:
  either a proper value `MVal.ok x` or `MVal.moved`, the valid-but-unspecified
  state a value is left in after being moved from.
* Element operations that may invoke user code (constructors, assignments) are
  driven by a throw oracle `orc : Nat → Bool`: the oracle is consulted once per
  throw-capable element operation, in program order; `orc k = true` means the
  k-th such operation raises.  Whether a move operation is throw-capable is
  determined by the compile-time trait `Traits.nothrowMove`, mirroring the
  source's `std::is_nothrow_move_constructible_v<T>` dispatch.
* `Eff` counts the observable element side effects of a run: `cons`/`dest`
  count element constructions and destructions, `mvc`/`cpc` count move- and
  copy-constructions specifically, `alloc` counts raw-memory allocations
  (`operator new` calls; an allocation of zero cells performs none, mirroring
  `RawMemory::Allocate`), and `ctr` is the oracle position.
* Results are four-way: normal return, an exception propagating out (carrying
  the container's post-state), undefined behaviour (an operation with an
  unsatisfied precondition of the C++ standard library / core language), or an
  `assert` firing (abort).
* The standard library algorithms used by the source (`std::uninitialized_*`,
  `std::destroy_n`, `std::copy`, `std::move`, `std::move_backward`) are
  modelled from their documented semantics, including the destruction of
  already-constructed cells when an `uninitialized_*` algorithm throws.
-/

namespace CV

/-- An element value: a proper value, or the valid-but-unspecified state left
behind by a move. -/
inductive MVal (α : Type) where
  | ok (x : α)
  | moved
deriving DecidableEq, Repr

/-- One slot of raw storage: uninitialized, or holding a constructed value. -/
inductive Cell (α : Type) where
  | raw
  | live (v : MVal α)
deriving DecidableEq, Repr

/-- Whether a cell holds a constructed element. -/
def Cell.isLive : Cell α → Bool
  | .raw => false
  | .live _ => true

/-- A buffer of cells, addressed by slot index. -/
abbrev Mem (α : Type) := Nat → Cell α

/-- Pointwise update of a buffer. -/
def Mem.upd (m : Mem α) (i : Nat) (c : Cell α) : Mem α :=
  fun j => if j = i then c else m j

/-- Side-effect counters of a run: oracle position, constructions,
destructions, move-constructions, copy-constructions, allocations. -/
structure Eff where
  ctr : Nat
  cons : Nat
  dest : Nat
  mvc : Nat
  cpc : Nat
  alloc : Nat
deriving DecidableEq, Repr

/-- Compile-time traits of the element type `T`:
`std::is_nothrow_move_constructible_v<T>` and
`std::is_copy_constructible_v<T>`. -/
structure Traits where
  nothrowMove : Bool
  copyCtor : Bool

/-- The source's relocation dispatch, evaluated at compile time:
`std::is_nothrow_move_constructible_v<T> || !std::is_copy_constructible_v<T>`. -/
def Traits.useMove (t : Traits) : Bool := t.nothrowMove || !t.copyCtor

/-- The kinds of element operations that run user code. -/
inductive EvKind where
  | valCtor
  | copyCtor
  | moveCtor
  | fwdCtor
  | copyAsg
  | moveAsg
deriving DecidableEq, Repr

/-- Whether an element operation of this kind can raise: move operations are
non-throwing exactly when the element type's move constructor is `noexcept`;
every other user operation may throw. -/
def EvKind.canThrow (k : EvKind) (t : Traits) : Bool :=
  match k with
  | .moveCtor => !t.nothrowMove
  | .moveAsg => !t.nothrowMove
  | _ => true

/-- Record a successful element operation in the side-effect counters. -/
def Eff.note (e : Eff) (k : EvKind) : Eff :=
  match k with
  | .valCtor => { e with cons := e.cons + 1 }
  | .copyCtor => { e with cons := e.cons + 1, cpc := e.cpc + 1 }
  | .moveCtor => { e with cons := e.cons + 1, mvc := e.mvc + 1 }
  | .fwdCtor => { e with cons := e.cons + 1 }
  | .copyAsg => e
  | .moveAsg => e

/-- Run one element operation against the throw oracle.  `Except.error`
means the user code raised. -/
def attemptEv (orc : Nat → Bool) (t : Traits) (k : EvKind) (e : Eff) : Except Eff Eff :=
  if k.canThrow t then
    if orc e.ctr then Except.error { e with ctr := e.ctr + 1 }
    else Except.ok (Eff.note { e with ctr := e.ctr + 1 } k)
  else Except.ok (Eff.note e k)

/-- Record an allocation: `RawMemory::Allocate` calls `operator new` only for a
non-zero cell count. -/
def allocEff (n : Nat) (e : Eff) : Eff :=
  if n = 0 then e else { e with alloc := e.alloc + 1 }

/-- Result of a standard-library algorithm: normal completion, an exception
escaping (after the algorithm's own cleanup), undefined behaviour, or an
`assert` abort. -/
inductive ARes (σ : Type) where
  | ok (s : σ)
  | thrown (s : σ)
  | ub
  | aborted

/-- `std::destroy_n(first, n)`: destroy the `n` cells `[first, first + n)`.
Destroying a cell that is not live is undefined behaviour. -/
def destroyN (m : Mem α) (first n : Nat) (e : Eff) : ARes (Mem α × Eff) :=
  match n with
  | 0 => ARes.ok (m, e)
  | Nat.succ k =>
    match m first with
    | Cell.live _ =>
        destroyN (m.upd first Cell.raw) (first + 1) k { e with dest := e.dest + 1 }
    | Cell.raw => ARes.ub

/-- `std::uninitialized_value_construct_n(first, n)` with value-initialized
element value `dflt`: construct into the raw cells `[first, first + n)`; if a
construction throws, the cells already constructed by the call are destroyed
before the exception propagates. -/
def uninitValueConstructN (orc : Nat → Bool) (t : Traits) (dflt : α)
    (m : Mem α) (first n : Nat) (e : Eff) : ARes (Mem α × Eff) :=
  match n with
  | 0 => ARes.ok (m, e)
  | Nat.succ k =>
    match m first with
    | Cell.raw =>
      match attemptEv orc t EvKind.valCtor e with
      | Except.error e1 => ARes.thrown (m, e1)
      | Except.ok e1 =>
        match uninitValueConstructN orc t dflt (m.upd first (Cell.live (MVal.ok dflt))) (first + 1) k e1 with
        | ARes.ok r => ARes.ok r
        | ARes.thrown (m2, e2) =>
            ARes.thrown (m2.upd first Cell.raw, { e2 with dest := e2.dest + 1 })
        | ARes.ub => ARes.ub
        | ARes.aborted => ARes.aborted
    | Cell.live _ => ARes.ub

/-- `std::uninitialized_copy_n(src + sfirst, n, dst + dfirst)`: copy-construct
`n` cells into raw storage; on a throw, the cells already constructed by the
call are destroyed before the exception propagates. -/
def uninitCopyN (orc : Nat → Bool) (t : Traits)
    (src : Mem α) (sfirst n : Nat) (dst : Mem α) (dfirst : Nat) (e : Eff) :
    ARes (Mem α × Eff) :=
  match n with
  | 0 => ARes.ok (dst, e)
  | Nat.succ k =>
    match src sfirst, dst dfirst with
    | Cell.live v, Cell.raw =>
      match attemptEv orc t EvKind.copyCtor e with
      | Except.error e1 => ARes.thrown (dst, e1)
      | Except.ok e1 =>
        match uninitCopyN orc t src (sfirst + 1) k (dst.upd dfirst (Cell.live v)) (dfirst + 1) e1 with
        | ARes.ok r => ARes.ok r
        | ARes.thrown (d2, e2) =>
            ARes.thrown (d2.upd dfirst Cell.raw, { e2 with dest := e2.dest + 1 })
        | ARes.ub => ARes.ub
        | ARes.aborted => ARes.aborted
    | _, _ => ARes.ub

/-- `std::uninitialized_move_n(src + sfirst, n, dst + dfirst)`: move-construct
`n` cells into raw storage, leaving each source cell live but moved-from; on a
throw, the destination cells already constructed are destroyed (the source
cells already moved from stay in their moved-from state). -/
def uninitMoveN (orc : Nat → Bool) (t : Traits)
    (src : Mem α) (sfirst n : Nat) (dst : Mem α) (dfirst : Nat) (e : Eff) :
    ARes (Mem α × Mem α × Eff) :=
  match n with
  | 0 => ARes.ok (src, dst, e)
  | Nat.succ k =>
    match src sfirst, dst dfirst with
    | Cell.live v, Cell.raw =>
      match attemptEv orc t EvKind.moveCtor e with
      | Except.error e1 => ARes.thrown (src, dst, e1)
      | Except.ok e1 =>
        match uninitMoveN orc t (src.upd sfirst (Cell.live MVal.moved)) (sfirst + 1) k
              (dst.upd dfirst (Cell.live v)) (dfirst + 1) e1 with
        | ARes.ok r => ARes.ok r
        | ARes.thrown (s2, d2, e2) =>
            ARes.thrown (s2, d2.upd dfirst Cell.raw, { e2 with dest := e2.dest + 1 })
        | ARes.ub => ARes.ub
        | ARes.aborted => ARes.aborted
    | _, _ => ARes.ub

/-- `std::copy(src + sfirst, src + sfirst + n, dst + dfirst)` between two
distinct buffers: copy-assign onto live destination cells, with no cleanup of
its own on a throw. -/
def copyAssignRange (orc : Nat → Bool) (t : Traits)
    (src : Mem α) (sfirst n : Nat) (dst : Mem α) (dfirst : Nat) (e : Eff) :
    ARes (Mem α × Eff) :=
  match n with
  | 0 => ARes.ok (dst, e)
  | Nat.succ k =>
    match src sfirst, dst dfirst with
    | Cell.live v, Cell.live _ =>
      match attemptEv orc t EvKind.copyAsg e with
      | Except.error e1 => ARes.thrown (dst, e1)
      | Except.ok e1 =>
          copyAssignRange orc t src (sfirst + 1) k (dst.upd dfirst (Cell.live v)) (dfirst + 1) e1
    | _, _ => ARes.ub

/-- The loop of `std::move(first, last, d_first)` within one buffer: `n`
move-assignments walking forward, source index `f`, destination index `d`. -/
def moveAssignLoop (orc : Nat → Bool) (t : Traits)
    (m : Mem α) (f d n : Nat) (e : Eff) : ARes (Mem α × Eff) :=
  match n with
  | 0 => ARes.ok (m, e)
  | Nat.succ k =>
    match m f, m d with
    | Cell.live v, Cell.live _ =>
      match attemptEv orc t EvKind.moveAsg e with
      | Except.error e1 => ARes.thrown (m, e1)
      | Except.ok e1 =>
          moveAssignLoop orc t ((m.upd f (Cell.live MVal.moved)).upd d (Cell.live v)) (f + 1) (d + 1) k e1
    | _, _ => ARes.ub

/-- `std::move(m + f, m + l, m + d)`: a range `[f, l)` with `l < f` is not a
valid range, which is undefined behaviour. -/
def stdMove (orc : Nat → Bool) (t : Traits)
    (m : Mem α) (f l d : Nat) (e : Eff) : ARes (Mem α × Eff) :=
  if f ≤ l then moveAssignLoop orc t m f d (l - f) e else ARes.ub

/-- The loop of `std::move_backward(first, last, d_last)` within one buffer:
`n` move-assignments walking backward from the ends of the ranges. -/
def moveBackwardLoop (orc : Nat → Bool) (t : Traits)
    (m : Mem α) (f dlast n : Nat) (e : Eff) : ARes (Mem α × Eff) :=
  match n with
  | 0 => ARes.ok (m, e)
  | Nat.succ k =>
    match m (f + k), m (dlast - 1) with
    | Cell.live v, Cell.live _ =>
      match attemptEv orc t EvKind.moveAsg e with
      | Except.error e1 => ARes.thrown (m, e1)
      | Except.ok e1 =>
          moveBackwardLoop orc t ((m.upd (f + k) (Cell.live MVal.moved)).upd (dlast - 1) (Cell.live v)) f (dlast - 1) k e1
    | _, _ => ARes.ub

/-- `std::move_backward(m + f, m + l, m + dlast)`. -/
def stdMoveBackward (orc : Nat → Bool) (t : Traits)
    (m : Mem α) (f l dlast : Nat) (e : Eff) : ARes (Mem α × Eff) :=
  if f ≤ l then moveBackwardLoop orc t m f dlast (l - f) e else ARes.ub

/-- Placement `new (data + offset) T(...)` from an already-computed value.
`RawMemory::operator+` asserts `offset <= capacity_` (abort on violation);
writing to the one-past-the-end slot, or over a live cell, is undefined
behaviour. -/
def constructAt (orc : Nat → Bool) (t : Traits) (k : EvKind)
    (m : Mem α) (cap offset : Nat) (v : MVal α) (e : Eff) : ARes (Mem α × Eff) :=
  if offset ≤ cap then
    if offset < cap then
      match m offset with
      | Cell.raw =>
        match attemptEv orc t k e with
        | Except.error e1 => ARes.thrown (m, e1)
        | Except.ok e1 => ARes.ok (m.upd offset (Cell.live v), e1)
      | Cell.live _ => ARes.ub
    else ARes.ub
  else ARes.aborted

/-- Placement `new (data + dsti) T(std::move(data[srci]))` within one buffer:
move-construct from cell `srci` into the raw cell `dsti`, leaving `srci` live
but moved-from.  On a throw the source is left unchanged. -/
def moveConstructWithin (orc : Nat → Bool) (t : Traits)
    (m : Mem α) (cap srci dsti : Nat) (e : Eff) : ARes (Mem α × Eff) :=
  if dsti ≤ cap then
    if dsti < cap then
      match m srci, m dsti with
      | Cell.live v, Cell.raw =>
        match attemptEv orc t EvKind.moveCtor e with
        | Except.error e1 => ARes.thrown (m, e1)
        | Except.ok e1 => ARes.ok ((m.upd srci (Cell.live MVal.moved)).upd dsti (Cell.live v), e1)
      | _, _ => ARes.ub
    else ARes.ub
  else ARes.aborted

/-- `RawMemory<T>`: a typed pointer to raw storage plus its capacity.  The
buffer contents are tracked per cell; `Allocate` returns untouched (raw)
storage. -/
structure RawMemory (α : Type) where
  buffer : Mem α
  capacity : Nat

/-- `RawMemory::Allocate(n)` wrapped in the constructor `RawMemory(capacity)`:
fresh raw storage of `n` cells (a null buffer when `n = 0`). -/
def RawMemory.Allocate (n : Nat) : RawMemory α :=
  ⟨fun _ => Cell.raw, n⟩

/-- `RawMemory::Swap`: exchange `buffer_` and `capacity_` pairwise; `noexcept`
and touches no cell. -/
def RawMemory.Swap (a b : RawMemory α) : RawMemory α × RawMemory α :=
  (⟨b.buffer, b.capacity⟩, ⟨a.buffer, a.capacity⟩)

/-- `Vector<T>`: one `RawMemory` plus the count of live cells at its front. -/
structure Vector (α : Type) where
  data : RawMemory α
  size : Nat

/-- `Vector::Size`. -/
def Vector.Size (v : Vector α) : Nat := v.size

/-- `Vector::Capacity`. -/
def Vector.Capacity (v : Vector α) : Nat := v.data.capacity

/-- `Vector::Swap`: swap the two `RawMemory`s and the two sizes; `noexcept`
and performs no element construction, destruction, copy or move (it is a pure
exchange of the buffer pointer, capacity and size, so it takes neither the
throw oracle nor the effect counters). -/
def Vector.Swap (a b : Vector α) : Vector α × Vector α :=
  let p := RawMemory.Swap a.data b.data
  (⟨p.1, b.size⟩, ⟨p.2, a.size⟩)

/-- Invariant L: the first `size` cells of the buffer are live and the
remaining cells up to `capacity` are raw. -/
def LiveUpTo (m : Mem α) (size cap : Nat) : Prop :=
  (∀ i, i < size → (m i).isLive = true) ∧ (∀ i, i < cap → size ≤ i → m i = Cell.raw)

/-- Invariant L of a `Vector`, including `size ≤ capacity`. -/
def Linv (v : Vector α) : Prop :=
  v.size ≤ v.data.capacity ∧ LiveUpTo v.data.buffer v.size v.data.capacity

instance instDecidableLiveUpTo [DecidableEq α] (m : Mem α) (size cap : Nat) :
    Decidable (LiveUpTo m size cap) := by
  unfold LiveUpTo
  infer_instance

instance instDecidableLinv [DecidableEq α] (v : Vector α) : Decidable (Linv v) := by
  unfold Linv
  infer_instance

/-- Result of a whole `Vector` operation: normal return, an exception escaping
(with the container's post-state; `none` when a constructor failed so no
object exists), undefined behaviour, or an `assert` abort. -/
inductive VOut (α : Type) where
  | ok (v : Vector α) (e : Eff)
  | thrown (v : Option (Vector α)) (e : Eff)
  | ub
  | aborted

/-- Whether the run completed normally. -/
def VOut.isOk : VOut α → Bool
  | .ok _ _ => true
  | _ => false

/-- Whether the run ended with an exception propagating out. -/
def VOut.isThrown : VOut α → Bool
  | .thrown _ _ => true
  | _ => false

/-- Whether the run hit undefined behaviour. -/
def VOut.isUB : VOut α → Bool
  | .ub => true
  | _ => false

/-- Whether the run aborted on an `assert`. -/
def VOut.isAborted : VOut α → Bool
  | .aborted => true
  | _ => false

/-- The container's post-state, with a default for outcomes that have none. -/
def VOut.stateD (r : VOut α) (d : Vector α) : Vector α :=
  match r with
  | .ok v _ => v
  | .thrown (some v) _ => v
  | _ => d

/-- The run's side-effect counters, with a default for outcomes without one. -/
def VOut.effD (r : VOut α) (d : Eff) : Eff :=
  match r with
  | .ok _ e => e
  | .thrown _ e => e
  | _ => d

/-- `Vector()`: empty, no allocation. -/
def Vector.mkDefault : Vector α := ⟨⟨fun _ => Cell.raw, 0⟩, 0⟩

/-- `Vector(size_t size)`: allocate `size` cells and value-initialize them;
on a constructor throw the cells built so far are destroyed and the storage is
released (no object exists). -/
def Vector.mkSized (orc : Nat → Bool) (t : Traits) (dflt : α) (n : Nat) (e : Eff) : VOut α :=
  let data : RawMemory α := RawMemory.Allocate n
  let e0 := allocEff n e
  match uninitValueConstructN orc t dflt data.buffer 0 n e0 with
  | ARes.ok (m, e1) => VOut.ok ⟨⟨m, n⟩, n⟩ e1
  | ARes.thrown (_, e1) => VOut.thrown none e1
  | ARes.ub => VOut.ub
  | ARes.aborted => VOut.aborted

/-- `Vector(const Vector& other)`: allocate `other.size_` cells and
copy-construct from `other`'s live range; on a throw the cells built so far
are destroyed and the storage released (no object exists). -/
def Vector.mkCopy (orc : Nat → Bool) (t : Traits) (other : Vector α) (e : Eff) : VOut α :=
  let data : RawMemory α := RawMemory.Allocate other.size
  let e0 := allocEff other.size e
  match uninitCopyN orc t other.data.buffer 0 other.size data.buffer 0 e0 with
  | ARes.ok (m, e1) => VOut.ok ⟨⟨m, other.size⟩, other.size⟩ e1
  | ARes.thrown (_, e1) => VOut.thrown none e1
  | ARes.ub => VOut.ub
  | ARes.aborted => VOut.aborted

/-- `Vector(Vector&& other) noexcept`: swap a default-constructed state with
`other`; returns the new object and `other`'s residual state. -/
def Vector.mkMove (other : Vector α) : Vector α × Vector α :=
  Vector.Swap Vector.mkDefault other

/-- `Vector::operator=(const Vector& rhs)`.  `same` models the pointer
identity test `this != &rhs` (value semantics cannot observe object identity).
Branches as the source: copy-and-swap when `rhs.size_ > capacity`, otherwise
in-place overwrite plus construction or destruction of the size difference. -/
def Vector.assignCopy (orc : Nat → Bool) (t : Traits)
    (self rhs : Vector α) (same : Bool) (e : Eff) : VOut α :=
  if same then VOut.ok self e
  else if rhs.size > self.data.capacity then
    match Vector.mkCopy orc t rhs e with
    | VOut.ok rhsCopy e1 =>
      let p := Vector.Swap self rhsCopy
      match destroyN p.2.data.buffer 0 p.2.size e1 with
      | ARes.ok (_, e2) => VOut.ok p.1 e2
      | _ => VOut.ub
    | VOut.thrown _ e1 => VOut.thrown (some self) e1
    | VOut.ub => VOut.ub
    | VOut.aborted => VOut.aborted
  else
    if rhs.size < self.size then
      match copyAssignRange orc t rhs.data.buffer 0 rhs.size self.data.buffer 0 e with
      | ARes.ok (m, e1) =>
        match destroyN m rhs.size (self.size - rhs.size) e1 with
        | ARes.ok (m2, e2) => VOut.ok ⟨⟨m2, self.data.capacity⟩, rhs.size⟩ e2
        | _ => VOut.ub
      | ARes.thrown (m, e1) => VOut.thrown (some ⟨⟨m, self.data.capacity⟩, self.size⟩) e1
      | ARes.ub => VOut.ub
      | ARes.aborted => VOut.aborted
    else
      match copyAssignRange orc t rhs.data.buffer 0 self.size self.data.buffer 0 e with
      | ARes.ok (m, e1) =>
        match uninitCopyN orc t rhs.data.buffer self.size (rhs.size - self.size) m self.size e1 with
        | ARes.ok (m2, e2) => VOut.ok ⟨⟨m2, self.data.capacity⟩, rhs.size⟩ e2
        | ARes.thrown (m2, e2) => VOut.thrown (some ⟨⟨m2, self.data.capacity⟩, self.size⟩) e2
        | ARes.ub => VOut.ub
        | ARes.aborted => VOut.aborted
      | ARes.thrown (m, e1) => VOut.thrown (some ⟨⟨m, self.data.capacity⟩, self.size⟩) e1
      | ARes.ub => VOut.ub
      | ARes.aborted => VOut.aborted

/-- `Vector::operator=(Vector&& rhs) noexcept`: swap unless self-assignment;
returns the new states of `self` and `rhs`. -/
def Vector.assignMove (self rhs : Vector α) (same : Bool) : Vector α × Vector α :=
  if same then (self, rhs) else Vector.Swap self rhs

/-- `Vector::Reserve(new_capacity)`: no-op when `new_capacity <= capacity`;
otherwise allocate, relocate by move or copy according to the compile-time
trait dispatch, destroy the originals and swap the storage. -/
def Vector.Reserve (orc : Nat → Bool) (t : Traits)
    (self : Vector α) (newCapacity : Nat) (e : Eff) : VOut α :=
  if newCapacity ≤ self.data.capacity then VOut.ok self e
  else
    let newData : RawMemory α := RawMemory.Allocate newCapacity
    let e0 := allocEff newCapacity e
    if t.useMove then
      match uninitMoveN orc t self.data.buffer 0 self.size newData.buffer 0 e0 with
      | ARes.ok (src, dst, e1) =>
        match destroyN src 0 self.size e1 with
        | ARes.ok (_, e2) => VOut.ok ⟨⟨dst, newCapacity⟩, self.size⟩ e2
        | _ => VOut.ub
      | ARes.thrown (src, _, e1) =>
          VOut.thrown (some ⟨⟨src, self.data.capacity⟩, self.size⟩) e1
      | ARes.ub => VOut.ub
      | ARes.aborted => VOut.aborted
    else
      match uninitCopyN orc t self.data.buffer 0 self.size newData.buffer 0 e0 with
      | ARes.ok (dst, e1) =>
        match destroyN self.data.buffer 0 self.size e1 with
        | ARes.ok (_, e2) => VOut.ok ⟨⟨dst, newCapacity⟩, self.size⟩ e2
        | _ => VOut.ub
      | ARes.thrown (_, e1) => VOut.thrown (some self) e1
      | ARes.ub => VOut.ub
      | ARes.aborted => VOut.aborted

/-- `Vector::Resize(new_size)`: grow via `Reserve` plus value-initialization of
the new tail, or shrink by destroying the tail. -/
def Vector.Resize (orc : Nat → Bool) (t : Traits) (dflt : α)
    (self : Vector α) (newSize : Nat) (e : Eff) : VOut α :=
  if newSize > self.size then
    match Vector.Reserve orc t self newSize e with
    | VOut.ok v1 e1 =>
      match uninitValueConstructN orc t dflt v1.data.buffer v1.size (newSize - v1.size) e1 with
      | ARes.ok (m, e2) => VOut.ok ⟨⟨m, v1.data.capacity⟩, newSize⟩ e2
      | ARes.thrown (m, e2) => VOut.thrown (some ⟨⟨m, v1.data.capacity⟩, v1.size⟩) e2
      | ARes.ub => VOut.ub
      | ARes.aborted => VOut.aborted
    | VOut.thrown v e1 => VOut.thrown v e1
    | VOut.ub => VOut.ub
    | VOut.aborted => VOut.aborted
  else
    match destroyN self.data.buffer newSize (self.size - newSize) e with
    | ARes.ok (m, e1) => VOut.ok ⟨⟨m, self.data.capacity⟩, newSize⟩ e1
    | _ => VOut.ub

/-- `Vector::EmplaceBack(args...)`: construct in place at index `size_`, after
reallocating to `size_ == 0 ? 1 : size_ * 2` when full.  On the reallocating
path the new element is constructed first; relocation is by move or copy per
the trait dispatch, and only the copy branch has a catch that destroys the one
cell at index `size_` of the new buffer before rethrowing. -/
def Vector.EmplaceBack (orc : Nat → Bool) (t : Traits)
    (self : Vector α) (arg : α) (e : Eff) : VOut α :=
  if self.size == self.data.capacity then
    let newData : RawMemory α := RawMemory.Allocate (if self.size == 0 then 1 else self.size * 2)
    let e0 := allocEff newData.capacity e
    match constructAt orc t EvKind.fwdCtor newData.buffer newData.capacity self.size (MVal.ok arg) e0 with
    | ARes.ok (nb, e1) =>
      if t.useMove then
        match uninitMoveN orc t self.data.buffer 0 self.size nb 0 e1 with
        | ARes.ok (src, dst, e2) =>
          match destroyN src 0 self.size e2 with
          | ARes.ok (_, e3) => VOut.ok ⟨⟨dst, newData.capacity⟩, self.size + 1⟩ e3
          | _ => VOut.ub
        | ARes.thrown (src, _, e2) =>
            VOut.thrown (some ⟨⟨src, self.data.capacity⟩, self.size⟩) e2
        | ARes.ub => VOut.ub
        | ARes.aborted => VOut.aborted
      else
        match uninitCopyN orc t self.data.buffer 0 self.size nb 0 e1 with
        | ARes.ok (dst, e2) =>
          match destroyN self.data.buffer 0 self.size e2 with
          | ARes.ok (_, e3) => VOut.ok ⟨⟨dst, newData.capacity⟩, self.size + 1⟩ e3
          | _ => VOut.ub
        | ARes.thrown (dst, e2) =>
          match destroyN dst self.size 1 e2 with
          | ARes.ok (_, e3) => VOut.thrown (some self) e3
          | _ => VOut.ub
        | ARes.ub => VOut.ub
        | ARes.aborted => VOut.aborted
    | ARes.thrown (_, e1) => VOut.thrown (some self) e1
    | ARes.ub => VOut.ub
    | ARes.aborted => VOut.aborted
  else
    match constructAt orc t EvKind.fwdCtor self.data.buffer self.data.capacity self.size (MVal.ok arg) e with
    | ARes.ok (m, e1) => VOut.ok ⟨⟨m, self.data.capacity⟩, self.size + 1⟩ e1
    | ARes.thrown (_, e1) => VOut.thrown (some self) e1
    | ARes.ub => VOut.ub
    | ARes.aborted => VOut.aborted

/-- `Vector::PushBack(value)` forwards to `EmplaceBack`. -/
def Vector.PushBack (orc : Nat → Bool) (t : Traits)
    (self : Vector α) (value : α) (e : Eff) : VOut α :=
  Vector.EmplaceBack orc t self value e

/-- `Vector::PopBack`: destroy the last live cell and decrement `size_`;
no-op on an empty vector. -/
def Vector.PopBack (self : Vector α) (e : Eff) : VOut α :=
  if self.size > 0 then
    match destroyN self.data.buffer (self.size - 1) 1 e with
    | ARes.ok (m, e1) => VOut.ok ⟨⟨m, self.data.capacity⟩, self.size - 1⟩ e1
    | _ => VOut.ub
  else VOut.ok self e

/-- `Vector::Emplace(pos, args...)` with `offset = pos - begin()`.  When full:
allocate `size_ == 0 ? 1 : size_ * 2`, construct the new element at `offset`
of the new buffer first, relocate prefix and suffix by move or copy per the
trait dispatch (the copy branch's catch destroys only the one cell at
`offset`), destroy the originals and swap.  Otherwise: move-construct the last
element into the raw cell at `size_`, shift `[offset, size_)` right by one with
`std::move_backward` (its catch destroys the cell at the old end), destroy the
cell at `offset` and construct the new element directly there. -/
def Vector.Emplace (orc : Nat → Bool) (t : Traits)
    (self : Vector α) (offset : Nat) (arg : α) (e : Eff) : VOut α :=
  if self.size == self.data.capacity then
    let newData : RawMemory α := RawMemory.Allocate (if self.size == 0 then 1 else self.size * 2)
    let e0 := allocEff newData.capacity e
    match constructAt orc t EvKind.fwdCtor newData.buffer newData.capacity offset (MVal.ok arg) e0 with
    | ARes.ok (nb, e1) =>
      if t.useMove then
        match uninitMoveN orc t self.data.buffer 0 offset nb 0 e1 with
        | ARes.ok (src1, nb1, e2) =>
          match uninitMoveN orc t src1 offset (self.size - offset) nb1 (offset + 1) e2 with
          | ARes.ok (src2, nb2, e3) =>
            match destroyN src2 0 self.size e3 with
            | ARes.ok (_, e4) => VOut.ok ⟨⟨nb2, newData.capacity⟩, self.size + 1⟩ e4
            | _ => VOut.ub
          | ARes.thrown (src2, _, e3) =>
              VOut.thrown (some ⟨⟨src2, self.data.capacity⟩, self.size⟩) e3
          | ARes.ub => VOut.ub
          | ARes.aborted => VOut.aborted
        | ARes.thrown (src1, _, e2) =>
            VOut.thrown (some ⟨⟨src1, self.data.capacity⟩, self.size⟩) e2
        | ARes.ub => VOut.ub
        | ARes.aborted => VOut.aborted
      else
        match uninitCopyN orc t self.data.buffer 0 offset nb 0 e1 with
        | ARes.ok (nb1, e2) =>
          match uninitCopyN orc t self.data.buffer offset (self.size - offset) nb1 (offset + 1) e2 with
          | ARes.ok (nb2, e3) =>
            match destroyN self.data.buffer 0 self.size e3 with
            | ARes.ok (_, e4) => VOut.ok ⟨⟨nb2, newData.capacity⟩, self.size + 1⟩ e4
            | _ => VOut.ub
          | ARes.thrown (nb2, e3) =>
            match destroyN nb2 offset 1 e3 with
            | ARes.ok (_, e4) => VOut.thrown (some self) e4
            | _ => VOut.ub
          | ARes.ub => VOut.ub
          | ARes.aborted => VOut.aborted
        | ARes.thrown (nb1, e2) =>
          match destroyN nb1 offset 1 e2 with
          | ARes.ok (_, e4) => VOut.thrown (some self) e4
          | _ => VOut.ub
        | ARes.ub => VOut.ub
        | ARes.aborted => VOut.aborted
    | ARes.thrown (_, e1) => VOut.thrown (some self) e1
    | ARes.ub => VOut.ub
    | ARes.aborted => VOut.aborted
  else
    let inner : ARes (Mem α × Eff) :=
      if self.size != 0 then
        match moveConstructWithin orc t self.data.buffer self.data.capacity (self.size - 1) self.size e with
        | ARes.ok (m1, e1) =>
          match stdMoveBackward orc t m1 offset self.size (self.size + 1) e1 with
          | ARes.ok (m2, e2) =>
            match destroyN m2 offset 1 e2 with
            | ARes.ok (m3, e3) => ARes.ok (m3, e3)
            | _ => ARes.ub
          | ARes.thrown (m2, e2) =>
            match destroyN m2 self.size 1 e2 with
            | ARes.ok (m3, e3) => ARes.thrown (m3, e3)
            | _ => ARes.ub
          | ARes.ub => ARes.ub
          | ARes.aborted => ARes.aborted
        | ARes.thrown (m1, e1) => ARes.thrown (m1, e1)
        | ARes.ub => ARes.ub
        | ARes.aborted => ARes.aborted
      else ARes.ok (self.data.buffer, e)
    match inner with
    | ARes.ok (m3, e3) =>
      match constructAt orc t EvKind.fwdCtor m3 self.data.capacity offset (MVal.ok arg) e3 with
      | ARes.ok (m4, e4) => VOut.ok ⟨⟨m4, self.data.capacity⟩, self.size + 1⟩ e4
      | ARes.thrown (m4, e4) => VOut.thrown (some ⟨⟨m4, self.data.capacity⟩, self.size⟩) e4
      | ARes.ub => VOut.ub
      | ARes.aborted => VOut.aborted
    | ARes.thrown (m3, e3) => VOut.thrown (some ⟨⟨m3, self.data.capacity⟩, self.size⟩) e3
    | ARes.ub => VOut.ub
    | ARes.aborted => VOut.aborted

/-- `Vector::Erase(pos)` with `shift = pos - begin()`: shift the suffix left by
one with `std::move`, then `PopBack`. -/
def Vector.Erase (orc : Nat → Bool) (t : Traits)
    (self : Vector α) (shift : Nat) (e : Eff) : VOut α :=
  match stdMove orc t self.data.buffer (shift + 1) self.size shift e with
  | ARes.ok (m, e1) => Vector.PopBack ⟨⟨m, self.data.capacity⟩, self.size⟩ e1
  | ARes.thrown (m, e1) => VOut.thrown (some ⟨⟨m, self.data.capacity⟩, self.size⟩) e1
  | ARes.ub => VOut.ub
  | ARes.aborted => VOut.aborted

/-- `Vector::Insert(pos, value)` (both overloads) forwards to `Emplace`. -/
def Vector.Insert (orc : Nat → Bool) (t : Traits)
    (self : Vector α) (offset : Nat) (value : α) (e : Eff) : VOut α :=
  Vector.Emplace orc t self offset value e

/-- Result of indexed access: a reference to the element, an `assert` abort,
or undefined behaviour.  The type has no exception outcome: `operator[]` is
`noexcept` and throws nothing. -/
inductive AccessOut (α : Type) where
  | ref (x : MVal α)
  | aborted
  | ub
deriving DecidableEq, Repr

/-- `Vector::operator[]` (both overloads): `assert(index < size_)` aborts on an
out-of-range index; within range it reads the live cell. -/
def Vector.atIdx (self : Vector α) (index : Nat) : AccessOut α :=
  if index < self.size then
    match self.data.buffer index with
    | Cell.live x => AccessOut.ref x
    | Cell.raw => AccessOut.ub
  else AccessOut.aborted

end CV

namespace CV

/-! ### Concrete instances used in claim theorems, counterexamples and
witnesses -/

/-- Oracle under which no element operation throws. -/
def orcNone : Nat → Bool := fun _ => false

/-- Oracle under which exactly the `j`-th throw-capable element operation of
the run throws. -/
def orcAt (j : Nat) : Nat → Bool := fun k => k == j

/-- Traits of an element type with a `noexcept` move constructor and a copy
constructor. -/
def tMv : Traits := ⟨true, true⟩

/-- Traits of an element type with a throwing move constructor and a copy
constructor (the source then relocates by copy). -/
def tCp : Traits := ⟨false, true⟩

/-- Zeroed side-effect counters. -/
def effZero : Eff := ⟨0, 0, 0, 0, 0, 0⟩

/-- A buffer holding the values 1 and 2 in its first two cells. -/
def memW2 : Mem Nat :=
  fun i => if i = 0 then Cell.live (MVal.ok 1) else if i = 1 then Cell.live (MVal.ok 2) else Cell.raw

/-- A buffer holding the value 5 in its first cell. -/
def memW1 : Mem Nat := fun i => if i = 0 then Cell.live (MVal.ok 5) else Cell.raw

/-- The vector [1, 2] with capacity 4. -/
def wv24 : Vector Nat := ⟨⟨memW2, 4⟩, 2⟩

/-- The vector [1, 2] with capacity 2 (full). -/
def wv22 : Vector Nat := ⟨⟨memW2, 2⟩, 2⟩

/-- The vector [5] with capacity 2. -/
def wv12 : Vector Nat := ⟨⟨memW1, 2⟩, 1⟩

/-- The empty vector with capacity 5. -/
def wv05 : Vector Nat := ⟨⟨fun _ => Cell.raw, 5⟩, 0⟩

/-! ### Basic lemmas about the primitives -/

theorem Mem.upd_self (m : Mem α) (i : Nat) (c : Cell α) : (m.upd i c) i = c := by
  simp [Mem.upd]

theorem Mem.upd_other (m : Mem α) (i j : Nat) (c : Cell α) (h : j ≠ i) :
    (m.upd i c) j = m j := by
  simp [Mem.upd, h]

theorem Cell.not_isLive_iff (c : Cell α) : c.isLive = false ↔ c = Cell.raw := by
  cases c <;> simp [Cell.isLive]

/-- Cumulative change of the side-effect counters of a run segment
(constructions, destructions, move-constructions, copy-constructions,
allocations); the oracle position is left unconstrained. -/
def EffDelta (e e1 : Eff) (dc dd dm dp da : Nat) : Prop :=
  e1.cons = e.cons + dc ∧ e1.dest = e.dest + dd ∧ e1.mvc = e.mvc + dm ∧
  e1.cpc = e.cpc + dp ∧ e1.alloc = e.alloc + da

theorem EffDelta.refl (e : Eff) : EffDelta e e 0 0 0 0 0 := by
  simp [EffDelta]

theorem EffDelta.comp {e e1 e2 : Eff} {a b c d f a1 b1 c1 d1 f1 : Nat}
    (h1 : EffDelta e e1 a b c d f) (h2 : EffDelta e1 e2 a1 b1 c1 d1 f1) :
    EffDelta e e2 (a + a1) (b + b1) (c + c1) (d + d1) (f + f1) := by
  obtain ⟨p1, p2, p3, p4, p5⟩ := h1
  obtain ⟨q1, q2, q3, q4, q5⟩ := h2
  refine ⟨?_, ?_, ?_, ?_, ?_⟩ <;> omega

theorem attemptEv_ok_effs (orc : Nat → Bool) (t : Traits) (k : EvKind) (e e1 : Eff)
    (h : attemptEv orc t k e = Except.ok e1) :
    e1.cons = (Eff.note e k).cons ∧ e1.dest = e.dest ∧ e1.mvc = (Eff.note e k).mvc ∧
    e1.cpc = (Eff.note e k).cpc ∧ e1.alloc = e.alloc := by
  unfold attemptEv at h
  split at h
  · split at h
    · cases h
    · cases h
      cases k <;> simp [Eff.note]
  · cases h
    cases k <;> simp [Eff.note]

theorem attemptEv_err_effs (orc : Nat → Bool) (t : Traits) (k : EvKind) (e e1 : Eff)
    (h : attemptEv orc t k e = Except.error e1) :
    e1.cons = e.cons ∧ e1.dest = e.dest ∧ e1.mvc = e.mvc ∧
    e1.cpc = e.cpc ∧ e1.alloc = e.alloc := by
  unfold attemptEv at h
  split at h
  · split at h
    · cases h
      simp
    · cases h
  · cases h

/-- Characterization of a completed `destroyN`: the range is raw, everything
else untouched, and exactly `n` destructions are recorded. -/
theorem destroyN_ok :
    ∀ (n first : Nat) (m d1 : Mem α) (e e1 : Eff),
    destroyN m first n e = ARes.ok (d1, e1) →
    (∀ j, j < n → d1 (first + j) = Cell.raw) ∧
    (∀ i, i < first ∨ first + n ≤ i → d1 i = m i) ∧
    EffDelta e e1 0 n 0 0 0 := by
  intro n
  induction n with
  | zero =>
    intro first m d1 e e1 h
    unfold destroyN at h
    cases h
    exact ⟨fun j hj => absurd hj (Nat.not_lt_zero j),
           fun i _ => rfl, EffDelta.refl e⟩
  | succ k ih =>
    intro first m d1 e e1 h
    unfold destroyN at h
    cases hc : m first with
    | raw => rw [hc] at h; cases h
    | live v =>
      rw [hc] at h
      obtain ⟨hvals, hframe, heff⟩ := ih (first + 1) _ d1 _ e1 h
      refine ⟨?_, ?_, ?_⟩
      · intro j hj
        cases j with
        | zero =>
          have : first + 0 < first + 1 := by omega
          rw [hframe (first + 0) (Or.inl this)]
          simpa using Mem.upd_self m first Cell.raw
        | succ j1 =>
          have := hvals j1 (by omega)
          have harith : first + 1 + j1 = first + Nat.succ j1 := by omega
          rwa [harith] at this
      · intro i hi
        have hi1 : i < first + 1 ∨ first + 1 + k ≤ i := by omega
        rw [hframe i hi1]
        exact Mem.upd_other m first i Cell.raw (by omega)
      · have h0 : EffDelta e { e with dest := e.dest + 1 } 0 1 0 0 0 := by
          simp [EffDelta]
        simpa [Nat.add_comm] using h0.comp heff

/-- A range of live cells can always be destroyed. -/
theorem destroyN_total :
    ∀ (n first : Nat) (m : Mem α) (e : Eff),
    (∀ j, j < n → (m (first + j)).isLive = true) →
    ∃ d1 e1, destroyN m first n e = ARes.ok (d1, e1) := by
  intro n
  induction n with
  | zero =>
    intro first m e _
    exact ⟨m, e, rfl⟩
  | succ k ih =>
    intro first m e hlive
    have h0 := hlive 0 (by omega)
    rw [Nat.add_zero] at h0
    cases hc : m first with
    | raw => rw [hc] at h0; simp [Cell.isLive] at h0
    | live v =>
      have hrec : ∀ j, j < k → ((m.upd first Cell.raw) (first + 1 + j)).isLive = true := by
        intro j hj
        rw [Mem.upd_other m first (first + 1 + j) Cell.raw (by omega)]
        have := hlive (j + 1) (by omega)
        have harith : first + (j + 1) = first + 1 + j := by omega
        rwa [harith] at this
      obtain ⟨d1, e1, hd⟩ := ih (first + 1) (m.upd first Cell.raw) { e with dest := e.dest + 1 } hrec
      refine ⟨d1, e1, ?_⟩
      unfold destroyN
      rw [hc]
      exact hd

/-- Characterization of a completed `uninitialized_copy_n`: the destination
range holds the source cells, everything else untouched, and `n`
copy-constructions are recorded. -/
theorem uninitCopyN_ok (orc : Nat → Bool) (t : Traits) :
    ∀ (n sfirst dfirst : Nat) (src dst d1 : Mem α) (e e1 : Eff),
    uninitCopyN orc t src sfirst n dst dfirst e = ARes.ok (d1, e1) →
    (∀ j, j < n → d1 (dfirst + j) = src (sfirst + j)) ∧
    (∀ i, i < dfirst ∨ dfirst + n ≤ i → d1 i = dst i) ∧
    EffDelta e e1 n 0 0 n 0 := by
  intro n
  induction n with
  | zero =>
    intro sfirst dfirst src dst d1 e e1 h
    unfold uninitCopyN at h
    cases h
    exact ⟨fun j hj => absurd hj (Nat.not_lt_zero j), fun i _ => rfl, EffDelta.refl e⟩
  | succ k ih =>
    intro sfirst dfirst src dst d1 e e1 h
    unfold uninitCopyN at h
    split at h
    · rename_i v hs hd
      split at h
      · cases h
      · rename_i e2 ha
        split at h
        · rename_i r hr
          obtain ⟨m2, f2⟩ := r
          cases h
          obtain ⟨hvals, hframe, heff⟩ := ih (sfirst + 1) (dfirst + 1) src _ _ e2 _ hr
          refine ⟨?_, ?_, ?_⟩
          · intro j hj
            cases j with
            | zero =>
              rw [hframe (dfirst + 0) (Or.inl (by omega))]
              rw [Nat.add_zero, Nat.add_zero, hs]
              exact Mem.upd_self dst dfirst (Cell.live v)
            | succ j1 =>
              have := hvals j1 (by omega)
              have ha1 : dfirst + 1 + j1 = dfirst + Nat.succ j1 := by omega
              have ha2 : sfirst + 1 + j1 = sfirst + Nat.succ j1 := by omega
              rwa [ha1, ha2] at this
          · intro i hi
            rw [hframe i (by omega)]
            exact Mem.upd_other dst dfirst i (Cell.live v) (by omega)
          · have h0 : EffDelta e e2 1 0 0 1 0 := by
              obtain ⟨q1, q2, q3, q4, q5⟩ := attemptEv_ok_effs orc t EvKind.copyCtor e e2 ha
              simp [Eff.note] at q1 q3 q4
              exact ⟨q1, by omega, by omega, q4, by omega⟩
            simpa [Nat.add_comm] using h0.comp heff
        · cases h
        · cases h
        · cases h
    · cases h

/-- Characterization of a completed `uninitialized_move_n`: the destination
range holds the source cells' former contents, the source range is live but
moved-from, everything else untouched, and `n` move-constructions are
recorded. -/
theorem uninitMoveN_ok (orc : Nat → Bool) (t : Traits) :
    ∀ (n sfirst dfirst : Nat) (src dst s1 d1 : Mem α) (e e1 : Eff),
    uninitMoveN orc t src sfirst n dst dfirst e = ARes.ok (s1, d1, e1) →
    (∀ j, j < n → d1 (dfirst + j) = src (sfirst + j) ∧ s1 (sfirst + j) = Cell.live MVal.moved) ∧
    (∀ i, i < sfirst ∨ sfirst + n ≤ i → s1 i = src i) ∧
    (∀ i, i < dfirst ∨ dfirst + n ≤ i → d1 i = dst i) ∧
    EffDelta e e1 n 0 n 0 0 := by
  intro n
  induction n with
  | zero =>
    intro sfirst dfirst src dst s1 d1 e e1 h
    unfold uninitMoveN at h
    cases h
    exact ⟨fun j hj => absurd hj (Nat.not_lt_zero j), fun i _ => rfl,
           fun i _ => rfl, EffDelta.refl e⟩
  | succ k ih =>
    intro sfirst dfirst src dst s1 d1 e e1 h
    unfold uninitMoveN at h
    split at h
    · rename_i v hs hd
      split at h
      · cases h
      · rename_i e2 ha
        split at h
        · rename_i r hr
          obtain ⟨s2, d2, f2⟩ := r
          cases h
          obtain ⟨hvals, hsfr, hdfr, heff⟩ := ih (sfirst + 1) (dfirst + 1) _ _ _ _ e2 _ hr
          refine ⟨?_, ?_, ?_, ?_⟩
          · intro j hj
            cases j with
            | zero =>
              constructor
              · rw [hdfr (dfirst + 0) (Or.inl (by omega))]
                rw [Nat.add_zero, Nat.add_zero, hs]
                exact Mem.upd_self dst dfirst (Cell.live v)
              · rw [hsfr (sfirst + 0) (Or.inl (by omega))]
                rw [Nat.add_zero]
                exact Mem.upd_self src sfirst (Cell.live MVal.moved)
            | succ j1 =>
              have := hvals j1 (by omega)
              have ha1 : dfirst + 1 + j1 = dfirst + Nat.succ j1 := by omega
              have ha2 : sfirst + 1 + j1 = sfirst + Nat.succ j1 := by omega
              rw [ha1, ha2] at this
              rw [Mem.upd_other src sfirst (sfirst + Nat.succ j1) (Cell.live MVal.moved) (by omega)] at this
              exact this
          · intro i hi
            rw [hsfr i (by omega)]
            exact Mem.upd_other src sfirst i (Cell.live MVal.moved) (by omega)
          · intro i hi
            rw [hdfr i (by omega)]
            exact Mem.upd_other dst dfirst i (Cell.live v) (by omega)
          · have h0 : EffDelta e e2 1 0 1 0 0 := by
              obtain ⟨q1, q2, q3, q4, q5⟩ := attemptEv_ok_effs orc t EvKind.moveCtor e e2 ha
              simp [Eff.note] at q1 q3 q4
              exact ⟨q1, by omega, q3, by omega, by omega⟩
            simpa [Nat.add_comm] using h0.comp heff
        · cases h
        · cases h
        · cases h
    · cases h

/-- Characterization of a completed `uninitialized_value_construct_n`: the
range holds value-initialized elements, everything else untouched, and `n`
constructions are recorded. -/
theorem uninitValueConstructN_ok (orc : Nat → Bool) (t : Traits) (dflt : α) :
    ∀ (n first : Nat) (m m1 : Mem α) (e e1 : Eff),
    uninitValueConstructN orc t dflt m first n e = ARes.ok (m1, e1) →
    (∀ j, j < n → m1 (first + j) = Cell.live (MVal.ok dflt)) ∧
    (∀ i, i < first ∨ first + n ≤ i → m1 i = m i) ∧
    EffDelta e e1 n 0 0 0 0 := by
  intro n
  induction n with
  | zero =>
    intro first m m1 e e1 h
    unfold uninitValueConstructN at h
    cases h
    exact ⟨fun j hj => absurd hj (Nat.not_lt_zero j), fun i _ => rfl, EffDelta.refl e⟩
  | succ k ih =>
    intro first m m1 e e1 h
    unfold uninitValueConstructN at h
    split at h
    · rename_i hc
      split at h
      · cases h
      · rename_i e2 ha
        split at h
        · rename_i r hr
          obtain ⟨m2, f2⟩ := r
          cases h
          obtain ⟨hvals, hframe, heff⟩ := ih (first + 1) _ _ e2 _ hr
          refine ⟨?_, ?_, ?_⟩
          · intro j hj
            cases j with
            | zero =>
              rw [hframe (first + 0) (Or.inl (by omega))]
              rw [Nat.add_zero]
              exact Mem.upd_self m first (Cell.live (MVal.ok dflt))
            | succ j1 =>
              have := hvals j1 (by omega)
              have ha1 : first + 1 + j1 = first + Nat.succ j1 := by omega
              rwa [ha1] at this
          · intro i hi
            rw [hframe i (by omega)]
            exact Mem.upd_other m first i (Cell.live (MVal.ok dflt)) (by omega)
          · have h0 : EffDelta e e2 1 0 0 0 0 := by
              obtain ⟨q1, q2, q3, q4, q5⟩ := attemptEv_ok_effs orc t EvKind.valCtor e e2 ha
              simp [Eff.note] at q1 q3 q4
              exact ⟨q1, by omega, by omega, by omega, by omega⟩
            simpa [Nat.add_comm] using h0.comp heff
        · cases h
        · cases h
        · cases h
    · cases h

/-- Characterization of a completed `std::copy` between two buffers: the
destination range holds the source cells, everything else untouched; plain
assignments record no constructions or destructions. -/
theorem copyAssignRange_ok (orc : Nat → Bool) (t : Traits) :
    ∀ (n sfirst dfirst : Nat) (src dst d1 : Mem α) (e e1 : Eff),
    copyAssignRange orc t src sfirst n dst dfirst e = ARes.ok (d1, e1) →
    (∀ j, j < n → d1 (dfirst + j) = src (sfirst + j)) ∧
    (∀ i, i < dfirst ∨ dfirst + n ≤ i → d1 i = dst i) ∧
    EffDelta e e1 0 0 0 0 0 := by
  intro n
  induction n with
  | zero =>
    intro sfirst dfirst src dst d1 e e1 h
    unfold copyAssignRange at h
    cases h
    exact ⟨fun j hj => absurd hj (Nat.not_lt_zero j), fun i _ => rfl, EffDelta.refl e⟩
  | succ k ih =>
    intro sfirst dfirst src dst d1 e e1 h
    unfold copyAssignRange at h
    split at h
    · rename_i v w hs hd
      split at h
      · cases h
      · rename_i e2 ha
        obtain ⟨hvals, hframe, heff⟩ := ih (sfirst + 1) (dfirst + 1) src _ _ e2 _ h
        refine ⟨?_, ?_, ?_⟩
        · intro j hj
          cases j with
          | zero =>
            rw [hframe (dfirst + 0) (Or.inl (by omega))]
            rw [Nat.add_zero, Nat.add_zero, hs]
            exact Mem.upd_self dst dfirst (Cell.live v)
          | succ j1 =>
            have := hvals j1 (by omega)
            have ha1 : dfirst + 1 + j1 = dfirst + Nat.succ j1 := by omega
            have ha2 : sfirst + 1 + j1 = sfirst + Nat.succ j1 := by omega
            rwa [ha1, ha2] at this
        · intro i hi
          rw [hframe i (by omega)]
          exact Mem.upd_other dst dfirst i (Cell.live v) (by omega)
        · have h0 : EffDelta e e2 0 0 0 0 0 := by
            obtain ⟨q1, q2, q3, q4, q5⟩ := attemptEv_ok_effs orc t EvKind.copyAsg e e2 ha
            simp [Eff.note] at q1 q3 q4
            exact ⟨q1, by omega, q3, q4, by omega⟩
          simpa using h0.comp heff
    · cases h

/-- The move-assignment loop of `std::move` preserves which cells are live,
leaves cells outside both ranges untouched, and records no constructions or
destructions — on its normal exit and on a throwing exit alike. -/
theorem moveAssignLoop_spec (orc : Nat → Bool) (t : Traits) :
    ∀ (n f d : Nat) (m m1 : Mem α) (e e1 : Eff),
    (moveAssignLoop orc t m f d n e = ARes.ok (m1, e1) ∨
     moveAssignLoop orc t m f d n e = ARes.thrown (m1, e1)) →
    (∀ i, (m1 i).isLive = (m i).isLive) ∧
    (∀ i, (i < f ∧ i < d) ∨ (f + n ≤ i ∧ d + n ≤ i) → m1 i = m i) ∧
    EffDelta e e1 0 0 0 0 0 := by
  intro n
  induction n with
  | zero =>
    intro f d m m1 e e1 h
    unfold moveAssignLoop at h
    rcases h with h | h
    · cases h
      exact ⟨fun i => rfl, fun i _ => rfl, EffDelta.refl e⟩
    · cases h
  | succ k ih =>
    intro f d m m1 e e1 h
    unfold moveAssignLoop at h
    rcases h with h | h
    · split at h
      · rename_i v w hs hd
        split at h
        · cases h
        · rename_i e2 ha
          obtain ⟨hlive, hframe, heff⟩ := ih (f + 1) (d + 1) _ _ e2 _ (Or.inl h)
          refine ⟨?_, ?_, ?_⟩
          · intro i
            rw [hlive i]
            by_cases hif : i = d
            · subst hif
              rw [Mem.upd_self, hd]
              rfl
            · rw [Mem.upd_other _ d i _ hif]
              by_cases hif2 : i = f
              · subst hif2
                rw [Mem.upd_self, hs]
                rfl
              · rw [Mem.upd_other _ f i _ hif2]
          · intro i hi
            rw [hframe i (by omega)]
            rw [Mem.upd_other _ d i _ (by omega), Mem.upd_other _ f i _ (by omega)]
          · have h0 : EffDelta e e2 0 0 0 0 0 := by
              obtain ⟨q1, q2, q3, q4, q5⟩ := attemptEv_ok_effs orc t EvKind.moveAsg e e2 ha
              simp [Eff.note] at q1 q3 q4
              exact ⟨q1, by omega, q3, q4, by omega⟩
            simpa using h0.comp heff
      · cases h
    · split at h
      · rename_i v w hs hd
        split at h
        · rename_i e2 ha
          cases h
          refine ⟨fun i => rfl, fun i _ => rfl, ?_⟩
          obtain ⟨q1, q2, q3, q4, q5⟩ := attemptEv_err_effs orc t EvKind.moveAsg e e1 ha
          exact ⟨by omega, by omega, by omega, by omega, by omega⟩
        · rename_i e2 ha
          obtain ⟨hlive, hframe, heff⟩ := ih (f + 1) (d + 1) _ _ e2 _ (Or.inr h)
          refine ⟨?_, ?_, ?_⟩
          · intro i
            rw [hlive i]
            by_cases hif : i = d
            · subst hif
              rw [Mem.upd_self, hd]
              rfl
            · rw [Mem.upd_other _ d i _ hif]
              by_cases hif2 : i = f
              · subst hif2
                rw [Mem.upd_self, hs]
                rfl
              · rw [Mem.upd_other _ f i _ hif2]
          · intro i hi
            rw [hframe i (by omega)]
            rw [Mem.upd_other _ d i _ (by omega), Mem.upd_other _ f i _ (by omega)]
          · have h0 : EffDelta e e2 0 0 0 0 0 := by
              obtain ⟨q1, q2, q3, q4, q5⟩ := attemptEv_ok_effs orc t EvKind.moveAsg e e2 ha
              simp [Eff.note] at q1 q3 q4
              exact ⟨q1, by omega, q3, q4, by omega⟩
            simpa using h0.comp heff
      · cases h

/-- Characterization of a completed placement `new` at `offset`: the target
cell was raw and within the buffer and now holds the value; one construction
is recorded. -/
theorem constructAt_ok (orc : Nat → Bool) (t : Traits) (k : EvKind)
    (m m1 : Mem α) (cap offset : Nat) (v : MVal α) (e e1 : Eff)
    (h : constructAt orc t k m cap offset v e = ARes.ok (m1, e1)) :
    m1 = m.upd offset (Cell.live v) ∧ offset < cap ∧ m offset = Cell.raw ∧
    e1.cons = (Eff.note e k).cons ∧ e1.dest = e.dest ∧ e1.mvc = (Eff.note e k).mvc ∧
    e1.cpc = (Eff.note e k).cpc ∧ e1.alloc = e.alloc := by
  unfold constructAt at h
  split at h
  · split at h
    · rename_i hle hlt
      split at h
      · rename_i hc
        split at h
        · cases h
        · rename_i e2 ha
          cases h
          obtain ⟨q1, q2, q3, q4, q5⟩ := attemptEv_ok_effs orc t k e e1 ha
          exact ⟨rfl, hlt, hc, q1, q2, q3, q4, q5⟩
      · cases h
    · cases h
  · cases h

/-- A thrown placement `new` leaves the buffer untouched and records no
side effects. -/
theorem constructAt_thrown (orc : Nat → Bool) (t : Traits) (k : EvKind)
    (m m1 : Mem α) (cap offset : Nat) (v : MVal α) (e e1 : Eff)
    (h : constructAt orc t k m cap offset v e = ARes.thrown (m1, e1)) :
    m1 = m ∧ EffDelta e e1 0 0 0 0 0 := by
  unfold constructAt at h
  split at h
  · split at h
    · split at h
      · split at h
        · rename_i e2 ha
          cases h
          obtain ⟨q1, q2, q3, q4, q5⟩ := attemptEv_err_effs orc t k e e1 ha
          exact ⟨rfl, by omega, by omega, by omega, by omega, by omega⟩
        · cases h
      · cases h
    · cases h
  · cases h

/-- Characterization of a completed within-buffer move-construction: the
source cell was live, the destination raw and within the buffer; afterwards
the destination holds the source's value and the source is moved-from.  One
move-construction is recorded. -/
theorem moveConstructWithin_ok (orc : Nat → Bool) (t : Traits)
    (m m1 : Mem α) (cap srci dsti : Nat) (e e1 : Eff)
    (h : moveConstructWithin orc t m cap srci dsti e = ARes.ok (m1, e1)) :
    ∃ v, m srci = Cell.live v ∧ m dsti = Cell.raw ∧ dsti < cap ∧
    m1 = (m.upd srci (Cell.live MVal.moved)).upd dsti (Cell.live v) ∧
    EffDelta e e1 1 0 1 0 0 := by
  unfold moveConstructWithin at h
  split at h
  · split at h
    · rename_i hle hlt
      split at h
      · rename_i v hs hd
        split at h
        · cases h
        · rename_i e2 ha
          cases h
          obtain ⟨q1, q2, q3, q4, q5⟩ := attemptEv_ok_effs orc t EvKind.moveCtor e e1 ha
          simp [Eff.note] at q1 q3 q4
          exact ⟨v, hs, hd, hlt, rfl, q1, by omega, q3, by omega, by omega⟩
      · cases h
    · cases h
  · cases h

/-- A thrown within-buffer move-construction leaves the buffer untouched and
records no side effects. -/
theorem moveConstructWithin_thrown (orc : Nat → Bool) (t : Traits)
    (m m1 : Mem α) (cap srci dsti : Nat) (e e1 : Eff)
    (h : moveConstructWithin orc t m cap srci dsti e = ARes.thrown (m1, e1)) :
    m1 = m ∧ EffDelta e e1 0 0 0 0 0 := by
  unfold moveConstructWithin at h
  split at h
  · split at h
    · split at h
      · rename_i v hs hd
        split at h
        · rename_i e2 ha
          cases h
          obtain ⟨q1, q2, q3, q4, q5⟩ := attemptEv_err_effs orc t EvKind.moveCtor e e1 ha
          exact ⟨rfl, by omega, by omega, by omega, by omega, by omega⟩
        · cases h
      · cases h
    · cases h
  · cases h

/-! ### Operation-level characterizations -/

/-- `Reserve` with a new capacity not exceeding the current one returns
without any effect. -/
theorem Reserve_noop (orc : Nat → Bool) (t : Traits) (v : Vector α) (n : Nat) (e : Eff)
    (h : n ≤ v.data.capacity) :
    Vector.Reserve orc t v n e = VOut.ok v e := by
  unfold Vector.Reserve
  rw [if_pos h]

/-- Characterization of a completed growing `Reserve`: the size and the first
`size` cells are preserved, the capacity becomes exactly `n`, the rest of the
new buffer is raw, and the side effects are one allocation, `size`
relocating constructions (moves or copies per the trait dispatch) and `size`
destructions of the originals. -/
theorem Reserve_grow_ok (orc : Nat → Bool) (t : Traits) (v v1 : Vector α) (n : Nat) (e e1 : Eff)
    (hgt : v.data.capacity < n)
    (h : Vector.Reserve orc t v n e = VOut.ok v1 e1) :
    v1.size = v.size ∧ v1.data.capacity = n ∧
    (∀ j, j < v.size → v1.data.buffer j = v.data.buffer j) ∧
    (∀ i, v.size ≤ i → v1.data.buffer i = Cell.raw) ∧
    EffDelta e e1 v.size v.size (if t.useMove = true then v.size else 0)
      (if t.useMove = true then 0 else v.size) 1 := by
  have halloc : EffDelta e (allocEff n e) 0 0 0 0 1 := by
    unfold allocEff
    rw [if_neg (by omega)]
    simp [EffDelta]
  simp only [Vector.Reserve] at h
  rw [if_neg (by omega)] at h
  split at h
  · rename_i hm
    split at h
    · rename_i src dst e2 hmv
      split at h
      · rename_i r hdn
        cases h
        obtain ⟨hvals, hsfr, hdfr, heffm⟩ := uninitMoveN_ok orc t v.size 0 0 _ _ _ _ _ _ hmv
        obtain ⟨_, _, heffd⟩ := destroyN_ok v.size 0 _ _ _ _ hdn
        refine ⟨rfl, rfl, ?_, ?_, ?_⟩
        · intro j hj
          have := (hvals j hj).1
          simpa using this
        · intro i hi
          have := hdfr i (Or.inr (by omega))
          simpa [RawMemory.Allocate] using this
        · obtain ⟨a1, a2, a3, a4, a5⟩ := halloc
          obtain ⟨b1, b2, b3, b4, b5⟩ := heffm
          obtain ⟨c1, c2, c3, c4, c5⟩ := heffd
          rw [if_pos hm, if_pos hm]
          exact ⟨by omega, by omega, by omega, by omega, by omega⟩
      · cases h
    · cases h
    · cases h
    · cases h
  · rename_i hm
    rw [Bool.not_eq_true] at hm
    split at h
    · rename_i dst e2 hcp
      split at h
      · rename_i r hdn
        cases h
        obtain ⟨hvals, hdfr, heffc⟩ := uninitCopyN_ok orc t v.size 0 0 _ _ _ _ _ hcp
        obtain ⟨_, _, heffd⟩ := destroyN_ok v.size 0 _ _ _ _ hdn
        refine ⟨rfl, rfl, ?_, ?_, ?_⟩
        · intro j hj
          have := hvals j hj
          simpa using this
        · intro i hi
          have := hdfr i (Or.inr (by omega))
          simpa [RawMemory.Allocate] using this
        · obtain ⟨a1, a2, a3, a4, a5⟩ := halloc
          obtain ⟨b1, b2, b3, b4, b5⟩ := heffc
          obtain ⟨c1, c2, c3, c4, c5⟩ := heffd
          rw [if_neg (by rw [hm]; exact Bool.false_ne_true), if_neg (by rw [hm]; exact Bool.false_ne_true)]
          exact ⟨by omega, by omega, by omega, by omega, by omega⟩
      · cases h
    · cases h
    · cases h
    · cases h

/-- Characterization of a completed growing `EmplaceBack` (called with
`size == capacity`): the new capacity is `size == 0 ? 1 : size * 2`, the size
grows by one, the first `size` cells keep their contents, the new element
sits at index `size`, the rest of the new buffer is raw, and the side effects
are one allocation, the new element's construction, `size` relocating
constructions (moves or copies per the trait dispatch) and `size`
destructions. -/
theorem EmplaceBack_grow_ok (orc : Nat → Bool) (t : Traits) (v v1 : Vector α) (x : α) (e e1 : Eff)
    (hg : v.size = v.data.capacity)
    (h : Vector.EmplaceBack orc t v x e = VOut.ok v1 e1) :
    v1.data.capacity = (if v.size = 0 then 1 else v.size * 2) ∧
    v1.size = v.size + 1 ∧
    (∀ j, j < v.size → v1.data.buffer j = v.data.buffer j) ∧
    v1.data.buffer v.size = Cell.live (MVal.ok x) ∧
    (∀ i, v.size + 1 ≤ i → v1.data.buffer i = Cell.raw) ∧
    EffDelta e e1 (v.size + 1) v.size (if t.useMove = true then v.size else 0)
      (if t.useMove = true then 0 else v.size) 1 := by
  have hne : (if v.size = 0 then 1 else v.size * 2) ≠ 0 := by
    split <;> omega
  have halloc : EffDelta e (allocEff (if v.size = 0 then 1 else v.size * 2) e) 0 0 0 0 1 := by
    unfold allocEff
    rw [if_neg hne]
    simp [EffDelta]
  obtain ⟨a1, a2, a3, a4, a5⟩ := halloc
  simp only [Vector.EmplaceBack, RawMemory.Allocate, beq_iff_eq] at h
  rw [if_pos hg] at h
  split at h
  · rename_i nb e2 hca
    obtain ⟨hnb, hlt, hraw, q1, q2, q3, q4, q5⟩ := constructAt_ok _ _ _ _ _ _ _ _ _ _ hca
    simp only [Eff.note] at q1 q3 q4
    split at h
    · rename_i hm
      split at h
      · rename_i src dst e3 hmv
        split at h
        · rename_i r hdn
          cases h
          obtain ⟨hvals, hsfr, hdfr, heffm⟩ := uninitMoveN_ok orc t v.size 0 0 _ _ _ _ _ _ hmv
          obtain ⟨b1, b2, b3, b4, b5⟩ := heffm
          obtain ⟨_, _, heffd⟩ := destroyN_ok v.size 0 _ _ _ _ hdn
          obtain ⟨c1, c2, c3, c4, c5⟩ := heffd
          refine ⟨rfl, rfl, ?_, ?_, ?_, ?_⟩
          · intro j hj
            have := (hvals j hj).1
            simpa using this
          · show dst v.size = Cell.live (MVal.ok x)
            have := hdfr v.size (Or.inr (by omega))
            rw [this, hnb]
            exact Mem.upd_self _ _ _
          · intro i hi
            show dst i = Cell.raw
            have := hdfr i (Or.inr (by omega))
            rw [this, hnb]
            exact Mem.upd_other _ _ _ _ (by omega)
          · rw [if_pos hm, if_pos hm]
            exact ⟨by omega, by omega, by omega, by omega, by omega⟩
        · cases h
      · cases h
      · cases h
      · cases h
    · rename_i hm
      rw [Bool.not_eq_true] at hm
      split at h
      · rename_i dst e3 hcp
        split at h
        · rename_i r hdn
          cases h
          obtain ⟨hvals, hdfr, heffc⟩ := uninitCopyN_ok orc t v.size 0 0 _ _ _ _ _ hcp
          obtain ⟨b1, b2, b3, b4, b5⟩ := heffc
          obtain ⟨_, _, heffd⟩ := destroyN_ok v.size 0 _ _ _ _ hdn
          obtain ⟨c1, c2, c3, c4, c5⟩ := heffd
          refine ⟨rfl, rfl, ?_, ?_, ?_, ?_⟩
          · intro j hj
            have := hvals j hj
            simpa using this
          · show dst v.size = Cell.live (MVal.ok x)
            have := hdfr v.size (Or.inr (by omega))
            rw [this, hnb]
            exact Mem.upd_self _ _ _
          · intro i hi
            show dst i = Cell.raw
            have := hdfr i (Or.inr (by omega))
            rw [this, hnb]
            exact Mem.upd_other _ _ _ _ (by omega)
          · rw [if_neg (by rw [hm]; exact Bool.false_ne_true),
                if_neg (by rw [hm]; exact Bool.false_ne_true)]
            exact ⟨by omega, by omega, by omega, by omega, by omega⟩
        · cases h
      · split at h
        · cases h
        · cases h
      · cases h
      · cases h
  · cases h
  · cases h
  · cases h

/-- Characterization of a completed non-growing `EmplaceBack` (spare capacity
available): one in-place construction at index `size`, nothing else touched. -/
theorem EmplaceBack_fit_ok (orc : Nat → Bool) (t : Traits) (v v1 : Vector α) (x : α) (e e1 : Eff)
    (hlt : v.size < v.data.capacity)
    (h : Vector.EmplaceBack orc t v x e = VOut.ok v1 e1) :
    v1.size = v.size + 1 ∧ v1.data.capacity = v.data.capacity ∧
    (∀ j, j < v.size → v1.data.buffer j = v.data.buffer j) ∧
    v1.data.buffer v.size = Cell.live (MVal.ok x) ∧
    (∀ i, v.size + 1 ≤ i → v1.data.buffer i = v.data.buffer i) ∧
    EffDelta e e1 1 0 0 0 0 := by
  simp only [Vector.EmplaceBack, beq_iff_eq] at h
  rw [if_neg (by omega)] at h
  split at h
  · rename_i m1 e2 hca
    cases h
    obtain ⟨hm1, _, hraw, q1, q2, q3, q4, q5⟩ := constructAt_ok _ _ _ _ _ _ _ _ _ _ hca
    simp only [Eff.note] at q1 q3 q4
    refine ⟨rfl, rfl, ?_, ?_, ?_, ?_⟩
    · intro j hj
      show m1 j = v.data.buffer j
      rw [hm1]
      exact Mem.upd_other _ _ _ _ (by omega)
    · show m1 v.size = Cell.live (MVal.ok x)
      rw [hm1]
      exact Mem.upd_self _ _ _
    · intro i hi
      show m1 i = v.data.buffer i
      rw [hm1]
      exact Mem.upd_other _ _ _ _ (by omega)
    · exact ⟨by omega, by omega, by omega, by omega, by omega⟩
  · cases h
  · cases h
  · cases h

/-- Capacity, size and side effects of a completed growing `Emplace` (called
with `size == capacity` and a cursor offset within the live range): the new
capacity is `size == 0 ? 1 : size * 2`, the size grows by one, and the side
effects are one allocation, the new element's construction, `size` relocating
constructions (moves or copies per the trait dispatch) and `size`
destructions. -/
theorem Emplace_grow_ok (orc : Nat → Bool) (t : Traits) (v v1 : Vector α)
    (offset : Nat) (x : α) (e e1 : Eff)
    (hg : v.size = v.data.capacity) (hoff : offset ≤ v.size)
    (h : Vector.Emplace orc t v offset x e = VOut.ok v1 e1) :
    v1.data.capacity = (if v.size = 0 then 1 else v.size * 2) ∧
    v1.size = v.size + 1 ∧
    EffDelta e e1 (v.size + 1) v.size (if t.useMove = true then v.size else 0)
      (if t.useMove = true then 0 else v.size) 1 := by
  have hne : (if v.size = 0 then 1 else v.size * 2) ≠ 0 := by
    split <;> omega
  have halloc : EffDelta e (allocEff (if v.size = 0 then 1 else v.size * 2) e) 0 0 0 0 1 := by
    unfold allocEff
    rw [if_neg hne]
    simp [EffDelta]
  obtain ⟨a1, a2, a3, a4, a5⟩ := halloc
  simp only [Vector.Emplace, RawMemory.Allocate, beq_iff_eq] at h
  rw [if_pos hg] at h
  split at h
  · rename_i nb e2 hca
    obtain ⟨hnb, hlt, hraw, q1, q2, q3, q4, q5⟩ := constructAt_ok _ _ _ _ _ _ _ _ _ _ hca
    simp only [Eff.note] at q1 q3 q4
    split at h
    · rename_i hm
      split at h
      · rename_i src1 nb1 e3 hmv1
        split at h
        · rename_i src2 nb2 e4 hmv2
          split at h
          · rename_i r hdn
            cases h
            obtain ⟨_, _, _, heff1⟩ := uninitMoveN_ok orc t offset 0 0 _ _ _ _ _ _ hmv1
            obtain ⟨b1, b2, b3, b4, b5⟩ := heff1
            obtain ⟨_, _, _, heff2⟩ := uninitMoveN_ok orc t (v.size - offset) offset (offset + 1) _ _ _ _ _ _ hmv2
            obtain ⟨c1, c2, c3, c4, c5⟩ := heff2
            obtain ⟨_, _, heffd⟩ := destroyN_ok v.size 0 _ _ _ _ hdn
            obtain ⟨d1, d2, d3, d4, d5⟩ := heffd
            refine ⟨rfl, rfl, ?_⟩
            rw [if_pos hm, if_pos hm]
            exact ⟨by omega, by omega, by omega, by omega, by omega⟩
          · cases h
        · cases h
        · cases h
        · cases h
      · cases h
      · cases h
      · cases h
    · rename_i hm
      rw [Bool.not_eq_true] at hm
      split at h
      · rename_i nb1 e3 hcp1
        split at h
        · rename_i nb2 e4 hcp2
          split at h
          · rename_i r hdn
            cases h
            obtain ⟨_, _, heff1⟩ := uninitCopyN_ok orc t offset 0 0 _ _ _ _ _ hcp1
            obtain ⟨b1, b2, b3, b4, b5⟩ := heff1
            obtain ⟨_, _, heff2⟩ := uninitCopyN_ok orc t (v.size - offset) offset (offset + 1) _ _ _ _ _ hcp2
            obtain ⟨c1, c2, c3, c4, c5⟩ := heff2
            obtain ⟨_, _, heffd⟩ := destroyN_ok v.size 0 _ _ _ _ hdn
            obtain ⟨d1, d2, d3, d4, d5⟩ := heffd
            refine ⟨rfl, rfl, ?_⟩
            rw [if_neg (by rw [hm]; exact Bool.false_ne_true),
                if_neg (by rw [hm]; exact Bool.false_ne_true)]
            exact ⟨by omega, by omega, by omega, by omega, by omega⟩
          · cases h
        · split at h
          · cases h
          · cases h
        · cases h
        · cases h
      · split at h
        · cases h
        · cases h
      · cases h
      · cases h
  · cases h
  · cases h
  · cases h

/-- With a `noexcept` move constructor, a within-buffer move-construction
from a live source into a raw in-range destination completes. -/
theorem moveConstructWithin_total (orc : Nat → Bool) (t : Traits)
    (m : Mem α) (cap srci dsti : Nat) (e : Eff) (w : MVal α)
    (hnm : t.nothrowMove = true) (hsrc : m srci = Cell.live w) (hdst : m dsti = Cell.raw)
    (hlt : dsti < cap) :
    moveConstructWithin orc t m cap srci dsti e =
      ARes.ok ((m.upd srci (Cell.live MVal.moved)).upd dsti (Cell.live w),
        Eff.note e EvKind.moveCtor) := by
  have hat : attemptEv orc t EvKind.moveCtor e = Except.ok (Eff.note e EvKind.moveCtor) := by
    simp [attemptEv, EvKind.canThrow, hnm]
  unfold moveConstructWithin
  rw [if_pos (by omega), if_pos hlt]
  simp only [hsrc, hdst, hat]

/-- A placement `new` whose element operation is throw-capable raises when
the oracle says so, leaving the buffer untouched. -/
theorem constructAt_throws (orc : Nat → Bool) (t : Traits) (k : EvKind)
    (m : Mem α) (cap offset : Nat) (v : MVal α) (e : Eff)
    (h1 : offset < cap) (h2 : m offset = Cell.raw)
    (hk : k.canThrow t = true) (ho : orc e.ctr = true) :
    constructAt orc t k m cap offset v e = ARes.thrown (m, { e with ctr := e.ctr + 1 }) := by
  have hat : attemptEv orc t k e = Except.error { e with ctr := e.ctr + 1 } := by
    simp [attemptEv, hk, ho]
  unfold constructAt
  rw [if_pos (by omega), if_pos h1]
  simp only [h2, hat]

/-- With a `noexcept` move constructor, the backward-shift loop always
completes, and it preserves which cells are live. -/
theorem moveBackwardLoop_total (orc : Nat → Bool) (t : Traits) (hnm : t.nothrowMove = true) :
    ∀ (n f dlast : Nat) (m : Mem α) (e : Eff),
    (∀ j, j < n → (m (f + j)).isLive = true) →
    (∀ j, j < n → (m (dlast - 1 - j)).isLive = true) →
    ∃ m1 e1, moveBackwardLoop orc t m f dlast n e = ARes.ok (m1, e1) ∧
      (∀ i, (m1 i).isLive = (m i).isLive) := by
  intro n
  induction n with
  | zero =>
    intro f dlast m e hs hd
    exact ⟨m, e, rfl, fun i => rfl⟩
  | succ k ih =>
    intro f dlast m e hs hd
    have hsk := hs k (by omega)
    have hd0 := hd 0 (by omega)
    rw [Nat.sub_zero] at hd0
    cases hcs : m (f + k) with
    | raw => rw [hcs] at hsk; simp [Cell.isLive] at hsk
    | live v =>
      cases hcd : m (dlast - 1) with
      | raw => rw [hcd] at hd0; simp [Cell.isLive] at hd0
      | live w =>
        have hat : attemptEv orc t EvKind.moveAsg e = Except.ok (Eff.note e EvKind.moveAsg) := by
          simp [attemptEv, EvKind.canThrow, hnm]
        have hlm2 : ∀ i,
            (((m.upd (f + k) (Cell.live MVal.moved)).upd (dlast - 1) (Cell.live v)) i).isLive =
              (m i).isLive := by
          intro i
          by_cases h1 : i = dlast - 1
          · subst h1
            rw [Mem.upd_self, hcd]
            rfl
          · rw [Mem.upd_other _ _ _ _ h1]
            by_cases h2 : i = f + k
            · subst h2
              rw [Mem.upd_self, hcs]
              rfl
            · rw [Mem.upd_other _ _ _ _ h2]
        obtain ⟨m1, e1, hrec, hlm⟩ := ih f (dlast - 1)
            ((m.upd (f + k) (Cell.live MVal.moved)).upd (dlast - 1) (Cell.live v))
            (Eff.note e EvKind.moveAsg)
            (fun j hj => by rw [hlm2 (f + j)]; exact hs j (by omega))
            (fun j hj => by
              rw [hlm2 (dlast - 1 - 1 - j)]
              have harith : dlast - 1 - 1 - j = dlast - 1 - (j + 1) := by omega
              rw [harith]
              exact hd (j + 1) (by omega))
        refine ⟨m1, e1, ?_, fun i => by rw [hlm i, hlm2 i]⟩
        unfold moveBackwardLoop
        simp only [hcs, hcd, hat]
        exact hrec

/-- The trait dispatch selects the move branch iff the move constructor is
non-throwing or there is no copy constructor. -/
theorem Traits.useMove_true (t : Traits) (h : t.nothrowMove = true ∨ t.copyCtor = false) :
    t.useMove = true := by
  unfold Traits.useMove
  rcases h with h | h <;> simp [h]

/-- The trait dispatch selects the copy branch iff the move constructor may
throw and a copy constructor exists. -/
theorem Traits.useMove_false (t : Traits) (h1 : t.nothrowMove = false) (h2 : t.copyCtor = true) :
    t.useMove = false := by
  unfold Traits.useMove
  simp [h1, h2]

/-- An allocation changes only the allocation counter. -/
theorem allocEff_fields (n : Nat) (e : Eff) :
    (allocEff n e).ctr = e.ctr ∧ (allocEff n e).cons = e.cons ∧ (allocEff n e).dest = e.dest ∧
    (allocEff n e).mvc = e.mvc ∧ (allocEff n e).cpc = e.cpc := by
  unfold allocEff
  split <;> simp

/-- A throw-capable element operation succeeds, advancing the oracle
position, when the oracle does not fire. -/
theorem attemptEv_noThrow (orc : Nat → Bool) (t : Traits) (k : EvKind) (e : Eff)
    (hk : k.canThrow t = true) (ho : orc e.ctr = false) :
    attemptEv orc t k e = Except.ok (Eff.note { e with ctr := e.ctr + 1 } k) := by
  simp [attemptEv, hk, ho]

/-- A throw-capable element operation raises when the oracle fires. -/
theorem attemptEv_throws (orc : Nat → Bool) (t : Traits) (k : EvKind) (e : Eff)
    (hk : k.canThrow t = true) (ho : orc e.ctr = true) :
    attemptEv orc t k e = Except.error { e with ctr := e.ctr + 1 } := by
  simp [attemptEv, hk, ho]

/-- A placement `new` succeeds, advancing the oracle position, when the
oracle does not fire. -/
theorem constructAt_noThrow (orc : Nat → Bool) (t : Traits) (k : EvKind)
    (m : Mem α) (cap offset : Nat) (v : MVal α) (e : Eff)
    (hk : k.canThrow t = true) (ho : orc e.ctr = false)
    (hlt : offset < cap) (hraw : m offset = Cell.raw) :
    constructAt orc t k m cap offset v e =
      ARes.ok (m.upd offset (Cell.live v), Eff.note { e with ctr := e.ctr + 1 } k) := by
  unfold constructAt
  rw [if_pos (by omega), if_pos hlt]
  simp only [hraw, attemptEv_noThrow orc t k e hk ho]

/-- `std::destroy_n` of a single live cell. -/
theorem destroyN_one (m : Mem α) (i : Nat) (e : Eff) (w : MVal α) (h : m i = Cell.live w) :
    destroyN m i 1 e = ARes.ok (m.upd i Cell.raw, { e with dest := e.dest + 1 }) := by
  unfold destroyN
  simp only [h]
  rfl

/-- When the oracle stays quiet for `n` positions, copy-constructing `n`
live cells into raw storage completes, advancing the oracle position by
`n`. -/
theorem uninitCopyN_total (orc : Nat → Bool) (t : Traits) :
    ∀ (n sfirst dfirst : Nat) (src dst : Mem α) (e : Eff),
    (∀ j, j < n → orc (e.ctr + j) = false) →
    (∀ j, j < n → (src (sfirst + j)).isLive = true) →
    (∀ j, j < n → dst (dfirst + j) = Cell.raw) →
    ∃ d1 e1, uninitCopyN orc t src sfirst n dst dfirst e = ARes.ok (d1, e1) ∧
      e1.ctr = e.ctr + n := by
  intro n
  induction n with
  | zero =>
    intro sfirst dfirst src dst e _ _ _
    exact ⟨dst, e, rfl, rfl⟩
  | succ k ih =>
    intro sfirst dfirst src dst e horc hsrc hdst
    have hs0 := hsrc 0 (by omega)
    rw [Nat.add_zero] at hs0
    cases hcs : src sfirst with
    | raw => rw [hcs] at hs0; simp [Cell.isLive] at hs0
    | live v =>
      have hd0 := hdst 0 (by omega)
      rw [Nat.add_zero] at hd0
      have hat := attemptEv_noThrow orc t EvKind.copyCtor e rfl
        (by have := horc 0 (by omega); rwa [Nat.add_zero] at this)
      obtain ⟨d1, e1, hrec, hctr⟩ := ih (sfirst + 1) (dfirst + 1) src (dst.upd dfirst (Cell.live v))
          (Eff.note { e with ctr := e.ctr + 1 } EvKind.copyCtor)
          (fun j hj => by
            have hnote :
                (Eff.note { e with ctr := e.ctr + 1 } EvKind.copyCtor).ctr = e.ctr + 1 := by
              simp [Eff.note]
            rw [hnote]
            have := horc (j + 1) (by omega)
            have harith : e.ctr + (j + 1) = e.ctr + 1 + j := by omega
            rwa [harith] at this)
          (fun j hj => by
            have := hsrc (j + 1) (by omega)
            have harith : sfirst + (j + 1) = sfirst + 1 + j := by omega
            rwa [harith] at this)
          (fun j hj => by
            rw [Mem.upd_other _ _ _ _ (by omega)]
            have := hdst (j + 1) (by omega)
            have harith : dfirst + (j + 1) = dfirst + 1 + j := by omega
            rwa [harith] at this)
      refine ⟨d1, e1, ?_, ?_⟩
      · unfold uninitCopyN
        simp only [hcs, hd0, hat, hrec]
      · simp only [Eff.note] at hctr
        simp only [hctr]
        omega

/-- `std::uninitialized_copy_n` over a non-empty range propagates the throw
of its very first copy, with no cell constructed and none to clean up. -/
theorem uninitCopyN_throws (orc : Nat → Bool) (t : Traits)
    (n sfirst dfirst : Nat) (src dst : Mem α) (e : Eff) (w : MVal α)
    (hn : 0 < n) (hsrc : src sfirst = Cell.live w) (hdst : dst dfirst = Cell.raw)
    (ho : orc e.ctr = true) :
    uninitCopyN orc t src sfirst n dst dfirst e =
      ARes.thrown (dst, { e with ctr := e.ctr + 1 }) := by
  cases n with
  | zero => omega
  | succ k =>
    unfold uninitCopyN
    simp only [hsrc, hdst, attemptEv_throws orc t EvKind.copyCtor e rfl ho]

/-- `std::move_backward` over the empty range `[f, f)` returns without
touching anything. -/
theorem stdMoveBackward_empty (orc : Nat → Bool) (t : Traits) (m : Mem α) (f dlast : Nat)
    (e : Eff) :
    stdMoveBackward orc t m f f dlast e = ARes.ok (m, e) := by
  unfold stdMoveBackward
  rw [if_pos (Nat.le_refl f), Nat.sub_self]
  rfl

/-- Characterization of a completed copy construction: the new vector has
size and capacity `other.size`, its live prefix equals `other`'s cells, and
the cells beyond are raw. -/
theorem mkCopy_ok (orc : Nat → Bool) (t : Traits) (other v1 : Vector α) (e e1 : Eff)
    (h : Vector.mkCopy orc t other e = VOut.ok v1 e1) :
    v1.size = other.size ∧ v1.data.capacity = other.size ∧
    (∀ j, j < other.size → v1.data.buffer j = other.data.buffer j) ∧
    (∀ i, other.size ≤ i → v1.data.buffer i = Cell.raw) := by
  simp only [Vector.mkCopy, RawMemory.Allocate] at h
  split at h
  · rename_i m e2 hcp
    cases h
    obtain ⟨hvals, hframe, _⟩ := uninitCopyN_ok orc t other.size 0 0 _ _ _ _ _ hcp
    refine ⟨rfl, rfl, ?_, ?_⟩
    · intro j hj
      have := hvals j hj
      simpa using this
    · intro i hi
      have := hframe i (Or.inr (by omega))
      simpa using this
  · cases h
  · cases h
  · cases h

/-! ### Claim theorems -/

/-- C1: the claim states that every public operation preserves invariant L
(`0 ≤ size ≤ capacity`, cells `[0, size)` live, cells `[size, capacity)` raw)
on all exit paths, including the exceptional ones where an element
constructor throws.  The code violates this on the in-place path of
`Emplace`: the cell at `offset` is destroyed and the new element is
constructed directly into it.  For every vector satisfying L with spare
capacity, every interior offset, and any `noexcept`-move element type whose
forwarded constructor throws, `Emplace` exits by exception in a state that
keeps the old size but has a raw cell at `offset` inside the live range —
invariant L is broken (the vector's own destructor would then destroy a raw
cell). -/
theorem claim_C1 (t : Traits) (v : Vector α) (offset : Nat) (x : α) (e : Eff)
    (hL : Linv v) (hnm : t.nothrowMove = true)
    (hoff : offset < v.size) (hcap : v.size < v.data.capacity) :
    ∃ v1 e1, Vector.Emplace (fun _ => true) t v offset x e = VOut.thrown (some v1) e1 ∧
      v1.size = v.size ∧ v1.data.buffer offset = Cell.raw ∧ ¬ Linv v1 := by
  obtain ⟨hsc, hlp, hrt⟩ := hL
  have hlast := hlp (v.size - 1) (by omega)
  cases hcl : v.data.buffer (v.size - 1) with
  | raw => rw [hcl] at hlast; simp [Cell.isLive] at hlast
  | live w =>
    have hsizeraw : v.data.buffer v.size = Cell.raw := hrt v.size hcap (Nat.le_refl _)
    have hmc := moveConstructWithin_total (fun _ => true) t v.data.buffer v.data.capacity
        (v.size - 1) v.size e w hnm hcl hsizeraw hcap
    have hm1live : ∀ i, i ≤ v.size →
        ((((v.data.buffer).upd (v.size - 1) (Cell.live MVal.moved)).upd v.size
            (Cell.live w)) i).isLive = true := by
      intro i hi
      by_cases h1 : i = v.size
      · subst h1
        rw [Mem.upd_self]
        rfl
      · rw [Mem.upd_other _ _ _ _ h1]
        by_cases h2 : i = v.size - 1
        · subst h2
          rw [Mem.upd_self]
          rfl
        · rw [Mem.upd_other _ _ _ _ h2]
          exact hlp i (by omega)
    obtain ⟨m2, e2, hloop, hlm2⟩ := moveBackwardLoop_total (fun _ => true) t hnm
        (v.size - offset) offset (v.size + 1) _ (Eff.note e EvKind.moveCtor)
        (fun j hj => hm1live (offset + j) (by omega))
        (fun j hj => by
          have harith : v.size + 1 - 1 - j = v.size - j := by omega
          rw [harith]
          exact hm1live (v.size - j) (by omega))
    have hsb : stdMoveBackward (fun _ => true) t
        (((v.data.buffer).upd (v.size - 1) (Cell.live MVal.moved)).upd v.size (Cell.live w))
        offset v.size (v.size + 1) (Eff.note e EvKind.moveCtor) = ARes.ok (m2, e2) := by
      unfold stdMoveBackward
      rw [if_pos (by omega)]
      exact hloop
    obtain ⟨m3, e3, hdn⟩ := destroyN_total 1 offset m2 e2 (fun j hj => by
      have hj0 : j = 0 := by omega
      subst hj0
      rw [Nat.add_zero, hlm2 offset]
      exact hm1live offset (by omega))
    obtain ⟨hvals3, hframe3, _⟩ := destroyN_ok 1 offset _ _ _ _ hdn
    have hoffraw : m3 offset = Cell.raw := by
      have := hvals3 0 (by omega)
      rwa [Nat.add_zero] at this
    have hcat := constructAt_throws (fun _ => true) t EvKind.fwdCtor m3 v.data.capacity offset
        (MVal.ok x) e3 (by omega) hoffraw rfl rfl
    refine ⟨⟨⟨m3, v.data.capacity⟩, v.size⟩, { e3 with ctr := e3.ctr + 1 }, ?_, rfl, hoffraw, ?_⟩
    · simp only [Vector.Emplace, beq_iff_eq]
      rw [if_neg (by omega : ¬ v.size = v.data.capacity),
          if_pos (by simp [Nat.pos_iff_ne_zero.mp (by omega : 0 < v.size)] :
            (v.size != 0) = true)]
      simp only [hmc, hsb, hdn, hcat]
    · intro hbad
      obtain ⟨_, hlp2, _⟩ := hbad
      have h5 := hlp2 offset hoff
      simp [hoffraw, Cell.isLive] at h5

/-- Witness for C1's failing input: emplacing at offset 0 of the vector
[1, 2] (size 2, capacity 4, invariant L holds) with a throwing forwarded
constructor exits by exception with the size still 2 but the cell at offset
0 raw — invariant L broken. -/
theorem claim_C1_witness :
    ∃ v1 e1,
      Vector.Emplace (fun _ => true) tMv wv24 0 99 effZero = VOut.thrown (some v1) e1 ∧
      v1.size = wv24.size ∧ v1.data.buffer 0 = Cell.raw ∧ ¬ Linv v1 :=
  claim_C1 tMv wv24 0 99 effZero (by decide) rfl (by decide) (by decide)

/-- C2: the claim states that whenever a user element constructor throws
inside an operation, the handler destroys every cell built so far in that
operation before releasing the fresh buffer.  The code violates this in the
reallocating copy branch of `Emplace`: the catch destroys only the single
cell at the insertion offset.  For every full vector satisfying L whose
element type relocates by copy (throwing move, copy constructor present) and
every insertion offset with non-empty prefix and suffix, if the copy of the
first suffix element throws, the operation exits by exception with the
container unchanged but with `offset + 1` constructions and only `1`
destruction recorded in the abandoned buffer — the `offset` prefix copies are
leaked. -/
theorem claim_C2 (t : Traits) (v : Vector α) (offset : Nat) (x : α) (e : Eff)
    (hL : Linv v) (hnm : t.nothrowMove = false) (hcc : t.copyCtor = true)
    (hg : v.size = v.data.capacity) (hpos : 1 ≤ offset) (hoff : offset < v.size) :
    ∃ e1, Vector.Emplace (fun k => k == e.ctr + offset + 1) t v offset x e =
        VOut.thrown (some v) e1 ∧
      e1.cons = e.cons + (offset + 1) ∧ e1.dest = e.dest + 1 := by
  obtain ⟨hsc, hlp, hrt⟩ := hL
  have hcapif : offset < (if v.size = 0 then 1 else v.size * 2) := by
    rw [if_neg (by omega)]
    omega
  have hctr0 : ((fun k => k == e.ctr + offset + 1)
      (allocEff (if v.size = 0 then 1 else v.size * 2) e).ctr) = false := by
    show ((allocEff (if v.size = 0 then 1 else v.size * 2) e).ctr == e.ctr + offset + 1) = false
    rw [(allocEff_fields (if v.size = 0 then 1 else v.size * 2) e).1]
    exact beq_eq_false_iff_ne.mpr (by omega)
  have hca := constructAt_noThrow (fun k => k == e.ctr + offset + 1) t EvKind.fwdCtor
      (fun _ => Cell.raw) (if v.size = 0 then 1 else v.size * 2) offset (MVal.ok x)
      (allocEff (if v.size = 0 then 1 else v.size * 2) e) rfl hctr0 hcapif rfl
  have hE1ctr : (Eff.note { allocEff (if v.size = 0 then 1 else v.size * 2) e with
      ctr := (allocEff (if v.size = 0 then 1 else v.size * 2) e).ctr + 1 }
        EvKind.fwdCtor).ctr = e.ctr + 1 := by
    simp [Eff.note, (allocEff_fields (if v.size = 0 then 1 else v.size * 2) e).1]
  have hE1cons : (Eff.note { allocEff (if v.size = 0 then 1 else v.size * 2) e with
      ctr := (allocEff (if v.size = 0 then 1 else v.size * 2) e).ctr + 1 }
        EvKind.fwdCtor).cons = e.cons + 1 := by
    simp [Eff.note, (allocEff_fields (if v.size = 0 then 1 else v.size * 2) e).2.1]
  have hE1dest : (Eff.note { allocEff (if v.size = 0 then 1 else v.size * 2) e with
      ctr := (allocEff (if v.size = 0 then 1 else v.size * 2) e).ctr + 1 }
        EvKind.fwdCtor).dest = e.dest := by
    simp [Eff.note, (allocEff_fields (if v.size = 0 then 1 else v.size * 2) e).2.2.1]
  obtain ⟨d1, e3, hpref, hctr3⟩ := uninitCopyN_total (fun k => k == e.ctr + offset + 1) t
      offset 0 0 v.data.buffer
      (Mem.upd (fun _ => Cell.raw) offset (Cell.live (MVal.ok x)))
      (Eff.note { allocEff (if v.size = 0 then 1 else v.size * 2) e with
        ctr := (allocEff (if v.size = 0 then 1 else v.size * 2) e).ctr + 1 } EvKind.fwdCtor)
      (fun j hj => by
        simp only [hE1ctr]
        exact beq_eq_false_iff_ne.mpr (by omega))
      (fun j hj => by
        rw [Nat.zero_add]
        exact hlp j (by omega))
      (fun j hj => by
        rw [Nat.zero_add, Mem.upd_other _ _ _ _ (by omega)])
  obtain ⟨hvalsP, hframeP, heffP⟩ := uninitCopyN_ok _ t offset 0 0 _ _ _ _ _ hpref
  obtain ⟨p1, p2, p3, p4, p5⟩ := heffP
  have hd1off : d1 offset = Cell.live (MVal.ok x) := by
    rw [hframeP offset (Or.inr (by omega))]
    exact Mem.upd_self _ _ _
  have hd1off1 : d1 (offset + 1) = Cell.raw := by
    rw [hframeP (offset + 1) (Or.inr (by omega))]
    rw [Mem.upd_other _ _ _ _ (by omega)]
  have hsrcoff := hlp offset hoff
  cases hcs : v.data.buffer offset with
  | raw => rw [hcs] at hsrcoff; simp [Cell.isLive] at hsrcoff
  | live w =>
    have hsuf := uninitCopyN_throws (fun k => k == e.ctr + offset + 1) t
        (v.size - offset) offset (offset + 1) v.data.buffer d1 e3 w
        (by omega) hcs hd1off1
        (by
          show (e3.ctr == e.ctr + offset + 1) = true
          rw [hctr3, hE1ctr]
          exact beq_iff_eq.mpr (by omega))
    have hcat := destroyN_one d1 offset { e3 with ctr := e3.ctr + 1 } (MVal.ok x) hd1off
    have hrun : Vector.Emplace (fun k => k == e.ctr + offset + 1) t v offset x e =
        VOut.thrown (some v) { e3 with ctr := e3.ctr + 1, dest := e3.dest + 1 } := by
      simp only [Vector.Emplace, RawMemory.Allocate, beq_iff_eq]
      rw [if_pos hg]
      simp only [hca]
      rw [Traits.useMove_false t hnm hcc, if_neg Bool.false_ne_true]
      simp only [hpref, hsuf, hcat]
    refine ⟨_, hrun, ?_, ?_⟩
    · show e3.cons = e.cons + (offset + 1)
      rw [p1, hE1cons]
      omega
    · show e3.dest + 1 = e.dest + 1
      rw [p2, hE1dest]

/-- Witness for the failing input of C2: emplacing at offset 1 of the full
vector [1, 2] (copy-relocating element type) where the suffix copy throws
leaves the container unchanged with 2 constructions but only 1 destruction
recorded for the abandoned buffer — one cell leaked. -/
theorem claim_C2_witness :
    ∃ e1, Vector.Emplace (fun k => k == effZero.ctr + 1 + 1) tCp wv22 1 99 effZero =
        VOut.thrown (some wv22) e1 ∧
      e1.cons = effZero.cons + (1 + 1) ∧ e1.dest = effZero.dest + 1 :=
  claim_C2 tCp wv22 1 99 effZero (by decide) rfl rfl (by decide) (by decide) (by decide)

/-- C3 counterexample: `insert(end(), x)` is not equivalent in effect to
`push_back(x)`.  On the vector [5] with spare capacity (invariant L holds),
inserting 7 at the end leaves the previously last element moved-from, while
`push_back(7)` leaves it unchanged; the element side effects also differ (the
insert performs an extra move-construction and destruction). -/
theorem claim_C3_cex :
    Linv wv12 ∧
    (VOut.stateD (Vector.Insert orcNone tMv wv12 1 7 effZero) wv12).data.buffer 0 =
      Cell.live MVal.moved ∧
    (VOut.stateD (Vector.PushBack orcNone tMv wv12 7 effZero) wv12).data.buffer 0 =
      Cell.live (MVal.ok 5) ∧
    VOut.effD (Vector.Insert orcNone tMv wv12 1 7 effZero) effZero ≠
      VOut.effD (Vector.PushBack orcNone tMv wv12 7 effZero) effZero :=
  ⟨by decide, by decide, by decide, by decide⟩

/-- C4 counterexample: `Erase` at the end position does not abort.  On the
vector [5], erasing at offset `size = 1` reaches `std::move` with the invalid
range `[begin() + 2, begin() + 1)` — undefined behaviour, with no
precondition check anywhere on the path — rather than an `assert` abort. -/
theorem claim_C4_cex :
    (Vector.Erase orcNone tMv wv12 1 effZero).isUB = true ∧
    (Vector.Erase orcNone tMv wv12 1 effZero).isAborted = false :=
  ⟨by decide, by decide⟩

/-- C6 counterexample: `reserve(n); reserve(m)` with `m ≤ n` does not always
leave capacity at `n`.  Starting from an empty vector of capacity 5,
`Reserve 3` and then `Reserve 2` are both no-ops (their argument is below the
capacity) and the capacity stays 5, not `n = 3`. -/
theorem claim_C6_cex :
    Vector.Reserve orcNone tMv wv05 3 effZero = VOut.ok wv05 effZero ∧
    Vector.Reserve orcNone tMv wv05 2 effZero = VOut.ok wv05 effZero ∧
    (VOut.stateD (Vector.Reserve orcNone tMv wv05 2 effZero) wv05).data.capacity ≠ 3 :=
  ⟨rfl, rfl, by decide⟩

/-- C4 (amended): an out-of-range indexed access aborts via the `assert` in
`operator[]` — and the access result type has no exception outcome, so no
bounds exception is thrown — but `Erase` called at the end position does not
abort: with no precondition check on its path it runs `std::move` over the
invalid range `[pos + 1, end())`, which is undefined behaviour, for every
vector, element type and oracle. -/
theorem claim_C4 :
    (∀ (v : Vector α) (i : Nat), v.size ≤ i → Vector.atIdx v i = AccessOut.aborted) ∧
    (∀ (orc : Nat → Bool) (t : Traits) (v : Vector α) (e : Eff),
      Vector.Erase orc t v v.size e = VOut.ub) := by
  constructor
  · intro v i hi
    unfold Vector.atIdx
    rw [if_neg (by omega)]
  · intro orc t v e
    unfold Vector.Erase stdMove
    rw [if_neg (by omega)]

/-- Witness for C4: `at(3)` on the one-element vector [5] aborts, and `Erase`
at its end offset 1 is undefined behaviour rather than an abort. -/
theorem claim_C4_witness :
    Vector.atIdx wv12 3 = AccessOut.aborted ∧
    Vector.Erase orcNone tMv wv12 1 effZero = VOut.ub :=
  ⟨claim_C4.1 wv12 3 (by decide), claim_C4.2 orcNone tMv wv12 effZero⟩

/-- C7: copy-assignment.  Self-assignment (the `this != &rhs` test, modelled
by the `same` flag) is a no-op.  When `rhs.size > capacity`, a fresh copy of
`rhs` is built and swapped in: afterwards the size and the element values are
`rhs`'s element-wise.  Otherwise the update is in place: no allocation
happens, the capacity is unchanged, the size and element values become
`rhs`'s, and the cells beyond `rhs.size` up to the capacity are raw — in
particular the cells of the old live range beyond `rhs.size` have been
destroyed when `rhs` is shorter. -/
theorem claim_C7 (orc : Nat → Bool) (t : Traits) (v rhs v1 : Vector α) (e e1 : Eff)
    (hL : Linv v) :
    (Vector.assignCopy orc t v rhs true e = VOut.ok v e) ∧
    (v.data.capacity < rhs.size →
      Vector.assignCopy orc t v rhs false e = VOut.ok v1 e1 →
      v1.size = rhs.size ∧
      (∀ j, j < rhs.size → v1.data.buffer j = rhs.data.buffer j)) ∧
    (rhs.size ≤ v.data.capacity →
      Vector.assignCopy orc t v rhs false e = VOut.ok v1 e1 →
      v1.size = rhs.size ∧ v1.data.capacity = v.data.capacity ∧ e1.alloc = e.alloc ∧
      (∀ j, j < rhs.size → v1.data.buffer j = rhs.data.buffer j) ∧
      (∀ i, rhs.size ≤ i → i < v.data.capacity → v1.data.buffer i = Cell.raw)) := by
  refine ⟨rfl, ?_, ?_⟩
  · intro hgt h
    simp only [Vector.assignCopy, Vector.Swap, RawMemory.Swap] at h
    rw [if_neg Bool.false_ne_true, if_pos (by omega : rhs.size > v.data.capacity)] at h
    split at h
    · rename_i rc e2 hmk
      obtain ⟨hsz, hcap, hvals, _⟩ := mkCopy_ok orc t rhs rc e e2 hmk
      split at h
      · rename_i r hdn
        cases h
        exact ⟨hsz, fun j hj => hvals j hj⟩
      · cases h
    · cases h
    · cases h
    · cases h
  · intro hle h
    simp only [Vector.assignCopy] at h
    rw [if_neg Bool.false_ne_true, if_neg (by omega : ¬ rhs.size > v.data.capacity)] at h
    split at h
    · rename_i hlt
      split at h
      · rename_i m e2 hcar
        split at h
        · rename_i m2 e3 hdn
          cases h
          obtain ⟨hvals, hframe, heffc⟩ := copyAssignRange_ok orc t rhs.size 0 0 _ _ _ _ _ hcar
          obtain ⟨a1, a2, a3, a4, a5⟩ := heffc
          obtain ⟨hvals2, hframe2, heffd⟩ := destroyN_ok (v.size - rhs.size) rhs.size _ _ _ _ hdn
          obtain ⟨b1, b2, b3, b4, b5⟩ := heffd
          refine ⟨rfl, rfl, by omega, ?_, ?_⟩
          · intro j hj
            show m2 j = rhs.data.buffer j
            rw [hframe2 j (Or.inl (by omega))]
            have := hvals j hj
            simpa using this
          · intro i hi hic
            show m2 i = Cell.raw
            by_cases hiv : i < v.size
            · have := hvals2 (i - rhs.size) (by omega)
              have harith : rhs.size + (i - rhs.size) = i := by omega
              rwa [harith] at this
            · rw [hframe2 i (Or.inr (by omega))]
              rw [hframe i (Or.inr (by omega))]
              exact hL.2.2 i hic (by omega)
        · cases h
      · cases h
      · cases h
      · cases h
    · rename_i hge
      split at h
      · rename_i m e2 hcar
        split at h
        · rename_i m2 e3 hucp
          cases h
          obtain ⟨hvals, hframe, heffc⟩ := copyAssignRange_ok orc t v.size 0 0 _ _ _ _ _ hcar
          obtain ⟨a1, a2, a3, a4, a5⟩ := heffc
          obtain ⟨hvals2, hframe2, heffu⟩ :=
            uninitCopyN_ok orc t (rhs.size - v.size) v.size v.size _ _ _ _ _ hucp
          obtain ⟨b1, b2, b3, b4, b5⟩ := heffu
          refine ⟨rfl, rfl, by omega, ?_, ?_⟩
          · intro j hj
            show m2 j = rhs.data.buffer j
            by_cases hjv : j < v.size
            · rw [hframe2 j (Or.inl (by omega))]
              have := hvals j hjv
              simpa using this
            · have := hvals2 (j - v.size) (by omega)
              have harith : v.size + (j - v.size) = j := by omega
              rwa [harith] at this
          · intro i hi hic
            show m2 i = Cell.raw
            rw [hframe2 i (Or.inr (by omega))]
            rw [hframe i (Or.inr (by omega))]
            exact hL.2.2 i hic (by omega)
        · cases h
        · cases h
        · cases h
      · cases h
      · cases h
      · cases h

/-- Witness for C7 at concrete inputs: self-assignment on [1, 2] is a no-op,
and assigning the shorter [5] into [1, 2] (capacity 4) in place yields size 1,
unchanged capacity, value 5 at index 0, and raw cells beyond. -/
theorem claim_C7_witness :
    Vector.assignCopy orcNone tMv wv24 wv24 true effZero = VOut.ok wv24 effZero ∧
    ((VOut.stateD (Vector.assignCopy orcNone tMv wv24 wv12 false effZero) wv24).size =
        wv12.size ∧
      (VOut.stateD (Vector.assignCopy orcNone tMv wv24 wv12 false effZero) wv24).data.capacity =
        wv24.data.capacity ∧
      (VOut.effD (Vector.assignCopy orcNone tMv wv24 wv12 false effZero) effZero).alloc =
        effZero.alloc ∧
      (∀ j, j < wv12.size →
        (VOut.stateD (Vector.assignCopy orcNone tMv wv24 wv12 false effZero) wv24).data.buffer j =
          wv12.data.buffer j) ∧
      (∀ i, wv12.size ≤ i → i < wv24.data.capacity →
        (VOut.stateD (Vector.assignCopy orcNone tMv wv24 wv12 false effZero) wv24).data.buffer i =
          Cell.raw)) :=
  ⟨(claim_C7 orcNone tMv wv24 wv24 wv24 effZero effZero (by decide)).1,
   (claim_C7 orcNone tMv wv24 wv12
      (VOut.stateD (Vector.assignCopy orcNone tMv wv24 wv12 false effZero) wv24) effZero
      (VOut.effD (Vector.assignCopy orcNone tMv wv24 wv12 false effZero) effZero)
      (by decide)).2.2 (by decide) rfl⟩

/-- C3 (amended): `insert(end(), x)` equals `push_back(x)` — same outcome,
state and side effects, for every oracle — when `size = 0` or
`size = capacity`.  Otherwise (`0 < size < capacity`) a completed
`insert(end(), x)` still grows the size by one, constructs `x` at the back
and keeps the elements `[0, size - 1)` unchanged, but leaves the previously
last element moved-from, spending one move-construction and one destruction
where `push_back` performs a single plain construction. -/
theorem claim_C3 (orc : Nat → Bool) (t : Traits) (v v1 w1 : Vector α) (x : α) (e e1 f1 : Eff) :
    (v.size = 0 ∨ v.size = v.data.capacity →
      Vector.Insert orc t v v.size x e = Vector.PushBack orc t v x e) ∧
    (0 < v.size → v.size < v.data.capacity →
      Vector.Insert orc t v v.size x e = VOut.ok v1 e1 →
      v1.size = v.size + 1 ∧ v1.data.capacity = v.data.capacity ∧
      (∀ j, j < v.size - 1 → v1.data.buffer j = v.data.buffer j) ∧
      v1.data.buffer (v.size - 1) = Cell.live MVal.moved ∧
      v1.data.buffer v.size = Cell.live (MVal.ok x) ∧
      EffDelta e e1 2 1 1 0 0) ∧
    (v.size < v.data.capacity →
      Vector.PushBack orc t v x e = VOut.ok w1 f1 →
      w1.size = v.size + 1 ∧ w1.data.capacity = v.data.capacity ∧
      (∀ j, j < v.size → w1.data.buffer j = v.data.buffer j) ∧
      w1.data.buffer v.size = Cell.live (MVal.ok x) ∧
      EffDelta e f1 1 0 0 0 0) := by
  refine ⟨?_, ?_, ?_⟩
  · intro hd
    show Vector.Emplace orc t v v.size x e = Vector.EmplaceBack orc t v x e
    rcases Nat.lt_or_ge v.size v.data.capacity with hlt | hge
    · have hz : v.size = 0 := by
        rcases hd with h | h
        · exact h
        · omega
      simp only [Vector.Emplace, Vector.EmplaceBack, beq_iff_eq]
      rw [if_neg (by omega : ¬ v.size = v.data.capacity),
          if_neg (by omega : ¬ v.size = v.data.capacity),
          if_neg (by simp [hz] : ¬ (v.size != 0) = true)]
      dsimp only
      cases hca : constructAt orc t EvKind.fwdCtor v.data.buffer v.data.capacity v.size
          (MVal.ok x) e with
      | ok r =>
        obtain ⟨m4, e4⟩ := r
        simp only [hca]
      | thrown r =>
        obtain ⟨m4, e4⟩ := r
        obtain ⟨hm, _⟩ := constructAt_thrown _ _ _ _ _ _ _ _ _ _ hca
        subst hm
        simp only [hca]
      | ub => simp only [hca]
      | aborted => simp only [hca]
    · have hcap : v.size = v.data.capacity := by
        rcases hd with h | h
        · omega
        · exact h
      simp only [Vector.Emplace, Vector.EmplaceBack, RawMemory.Allocate, beq_iff_eq]
      rw [if_pos hcap, if_pos hcap]
      cases hca : constructAt orc t EvKind.fwdCtor (fun _ => Cell.raw)
          (if v.size = 0 then 1 else v.size * 2) v.size (MVal.ok x)
          (allocEff (if v.size = 0 then 1 else v.size * 2) e) with
      | ok r =>
        obtain ⟨nb, e2⟩ := r
        simp only [hca]
        by_cases hm : t.useMove = true
        · rw [if_pos hm, if_pos hm]
          cases hmv : uninitMoveN orc t v.data.buffer 0 v.size nb 0 e2 with
          | ok r2 =>
            obtain ⟨src1, nb1, e3⟩ := r2
            simp only [hmv, Nat.sub_self, uninitMoveN]
          | thrown r2 =>
            obtain ⟨src1, nb1, e3⟩ := r2
            simp only [hmv]
          | ub => simp only [hmv]
          | aborted => simp only [hmv]
        · rw [if_neg hm, if_neg hm]
          cases hcp : uninitCopyN orc t v.data.buffer 0 v.size nb 0 e2 with
          | ok r2 =>
            obtain ⟨nb1, e3⟩ := r2
            simp only [hcp, Nat.sub_self, uninitCopyN]
          | thrown r2 =>
            obtain ⟨nb1, e3⟩ := r2
            simp only [hcp]
          | ub => simp only [hcp]
          | aborted => simp only [hcp]
      | thrown r =>
        obtain ⟨m4, e4⟩ := r
        simp only [hca]
      | ub => simp only [hca]
      | aborted => simp only [hca]
  · intro hpos hlt h
    simp only [Vector.Insert, Vector.Emplace, beq_iff_eq] at h
    rw [if_neg (by omega : ¬ v.size = v.data.capacity),
        if_pos (by simp [Nat.pos_iff_ne_zero.mp hpos] : (v.size != 0) = true)] at h
    split at h
    · rename_i m3 e3 hinner
      split at h
      · rename_i m4 e4 hca
        cases h
        obtain ⟨hm4, _, hm3raw, q1, q2, q3, q4, q5⟩ :=
          constructAt_ok _ _ _ _ _ _ _ _ _ _ hca
        simp only [Eff.note] at q1 q3 q4
        split at hinner
        · rename_i m1 e10 hmc
          simp only [stdMoveBackward_empty] at hinner
          split at hinner
          · rename_i m3a e3a hdn
            cases hinner
            obtain ⟨w, hsrc, hdst, _, hm1, heffm⟩ :=
              moveConstructWithin_ok _ _ _ _ _ _ _ _ _ hmc
            obtain ⟨a1, a2, a3, a4, a5⟩ := heffm
            obtain ⟨_, hframe, heffd⟩ := destroyN_ok 1 v.size _ _ _ _ hdn
            obtain ⟨b1, b2, b3, b4, b5⟩ := heffd
            refine ⟨rfl, rfl, ?_, ?_, ?_, ?_⟩
            · intro j hj
              show m4 j = v.data.buffer j
              rw [hm4, Mem.upd_other _ _ _ _ (by omega),
                  hframe j (Or.inl (by omega)), hm1,
                  Mem.upd_other _ _ _ _ (by omega),
                  Mem.upd_other _ _ _ _ (by omega)]
            · show m4 (v.size - 1) = Cell.live MVal.moved
              rw [hm4, Mem.upd_other _ _ _ _ (by omega),
                  hframe (v.size - 1) (Or.inl (by omega)), hm1,
                  Mem.upd_other _ _ _ _ (by omega)]
              exact Mem.upd_self _ _ _
            · show m4 v.size = Cell.live (MVal.ok x)
              rw [hm4]
              exact Mem.upd_self _ _ _
            · exact ⟨by omega, by omega, by omega, by omega, by omega⟩
          · cases hinner
        · cases hinner
        · cases hinner
        · cases hinner
      · cases h
      · cases h
      · cases h
    · cases h
    · cases h
    · cases h
  · intro hlt h
    obtain ⟨h1, h2, h3, h4, _, heff⟩ :=
      EmplaceBack_fit_ok orc t v w1 x e f1 hlt h
    exact ⟨h1, h2, h3, h4, heff⟩

/-- Witness for C3: inserting at the end of the empty capacity-5 vector is
identical to `push_back`; and on the one-element vector [5] with spare
capacity, a completed insert-at-end leaves the old element moved-from, puts 7
at index 1, and spends 2 constructions (1 move), 1 destruction. -/
theorem claim_C3_witness :
    Vector.Insert orcNone tMv wv05 wv05.size 7 effZero =
      Vector.PushBack orcNone tMv wv05 7 effZero ∧
    ((VOut.stateD (Vector.Insert orcNone tMv wv12 1 7 effZero) wv12).size = wv12.size + 1 ∧
      (VOut.stateD (Vector.Insert orcNone tMv wv12 1 7 effZero) wv12).data.capacity =
        wv12.data.capacity ∧
      (∀ j, j < wv12.size - 1 →
        (VOut.stateD (Vector.Insert orcNone tMv wv12 1 7 effZero) wv12).data.buffer j =
          wv12.data.buffer j) ∧
      (VOut.stateD (Vector.Insert orcNone tMv wv12 1 7 effZero) wv12).data.buffer
          (wv12.size - 1) = Cell.live MVal.moved ∧
      (VOut.stateD (Vector.Insert orcNone tMv wv12 1 7 effZero) wv12).data.buffer wv12.size =
        Cell.live (MVal.ok 7) ∧
      EffDelta effZero (VOut.effD (Vector.Insert orcNone tMv wv12 1 7 effZero) effZero)
        2 1 1 0 0) :=
  ⟨(claim_C3 orcNone tMv wv05 wv05 wv05 7 effZero effZero effZero).1 (Or.inl rfl),
   (claim_C3 orcNone tMv wv12
      (VOut.stateD (Vector.Insert orcNone tMv wv12 1 7 effZero) wv12) wv12 7 effZero
      (VOut.effD (Vector.Insert orcNone tMv wv12 1 7 effZero) effZero) effZero).2.1
     (by decide) (by decide) rfl⟩

/-- C5: at a growth point — an append or a mid-sequence emplace performed
when `size == capacity` — the new capacity is exactly 1 if the old capacity
was 0 and exactly `2 * capacity` otherwise.  (The source computes
`size_ == 0 ? 1 : size_ * 2`, which coincides because `size == capacity` holds
at a growth point.) -/
theorem claim_C5 (orc : Nat → Bool) (t : Traits) (v v1 v2 : Vector α) (x : α)
    (offset : Nat) (e e1 e2 : Eff) (hg : v.size = v.data.capacity) (hoff : offset ≤ v.size) :
    (Vector.EmplaceBack orc t v x e = VOut.ok v1 e1 →
      v1.data.capacity = if v.data.capacity = 0 then 1 else 2 * v.data.capacity) ∧
    (Vector.Emplace orc t v offset x e = VOut.ok v2 e2 →
      v2.data.capacity = if v.data.capacity = 0 then 1 else 2 * v.data.capacity) := by
  constructor
  · intro h
    obtain ⟨hcap, _⟩ := EmplaceBack_grow_ok orc t v v1 x e e1 hg h
    rw [hcap, ← hg]
    by_cases hz : v.size = 0
    · simp [hz]
    · rw [if_neg hz, if_neg hz]
      omega
  · intro h
    obtain ⟨hcap, _, _⟩ := Emplace_grow_ok orc t v v2 offset x e e2 hg hoff h
    rw [hcap, ← hg]
    by_cases hz : v.size = 0
    · simp [hz]
    · rw [if_neg hz, if_neg hz]
      omega

/-- Witness for C5: growing the full two-element vector [1, 2] by
`EmplaceBack` yields capacity `2 * 2 = 4`. -/
theorem claim_C5_witness :
    (VOut.stateD (Vector.EmplaceBack orcNone tMv wv22 9 effZero) wv22).data.capacity =
      if wv22.data.capacity = 0 then 1 else 2 * wv22.data.capacity :=
  (claim_C5 orcNone tMv wv22
      (VOut.stateD (Vector.EmplaceBack orcNone tMv wv22 9 effZero) wv22)
      (VOut.stateD (Vector.Emplace orcNone tMv wv22 2 9 effZero) wv22) 9 2 effZero
      (VOut.effD (Vector.EmplaceBack orcNone tMv wv22 9 effZero) effZero)
      (VOut.effD (Vector.Emplace orcNone tMv wv22 2 9 effZero) effZero)
      (by decide) (by decide)).1 rfl

/-- C6 (amended): `reserve(n)` with `n ≤ capacity` returns without any
effect; with `n > capacity` it sets the capacity to exactly `n`, preserving
the size and the element values; and — provided the first reservation is
effective, i.e. `capacity ≤ n` — `reserve(n)` followed by `reserve(m)` with
`m ≤ n` leaves the capacity at exactly `n`. -/
theorem claim_C6 (orc : Nat → Bool) (t : Traits) (v v1 : Vector α) (n m : Nat) (e e1 : Eff) :
    (n ≤ v.data.capacity → Vector.Reserve orc t v n e = VOut.ok v e) ∧
    (v.data.capacity < n → Vector.Reserve orc t v n e = VOut.ok v1 e1 →
      v1.size = v.size ∧ v1.data.capacity = n ∧
      (∀ j, j < v.size → v1.data.buffer j = v.data.buffer j)) ∧
    (v.data.capacity ≤ n → m ≤ n → Vector.Reserve orc t v n e = VOut.ok v1 e1 →
      v1.data.capacity = n ∧ Vector.Reserve orc t v1 m e1 = VOut.ok v1 e1) := by
  refine ⟨fun h => Reserve_noop orc t v n e h, ?_, ?_⟩
  · intro hgt h
    obtain ⟨h1, h2, h3, _, _⟩ := Reserve_grow_ok orc t v v1 n e e1 hgt h
    exact ⟨h1, h2, h3⟩
  · intro hle hm h
    rcases Nat.lt_or_ge v.data.capacity n with hgt | hge
    · obtain ⟨_, h2, _, _, _⟩ := Reserve_grow_ok orc t v v1 n e e1 hgt h
      exact ⟨h2, Reserve_noop orc t v1 m e1 (by omega)⟩
    · have hn : n = v.data.capacity := by omega
      rw [Reserve_noop orc t v n e (by omega)] at h
      cases h
      exact ⟨hn.symm, Reserve_noop orc t v m e (by omega)⟩

/-- Witness for C6: reserving 7 then 6 on an empty vector of capacity 5
leaves the capacity at 7. -/
theorem claim_C6_witness :
    (VOut.stateD (Vector.Reserve orcNone tMv wv05 7 effZero) wv05).data.capacity = 7 ∧
    Vector.Reserve orcNone tMv (VOut.stateD (Vector.Reserve orcNone tMv wv05 7 effZero) wv05) 6
        (VOut.effD (Vector.Reserve orcNone tMv wv05 7 effZero) effZero) =
      VOut.ok (VOut.stateD (Vector.Reserve orcNone tMv wv05 7 effZero) wv05)
        (VOut.effD (Vector.Reserve orcNone tMv wv05 7 effZero) effZero) :=
  (claim_C6 orcNone tMv wv05 (VOut.stateD (Vector.Reserve orcNone tMv wv05 7 effZero) wv05) 7 6
      effZero (VOut.effD (Vector.Reserve orcNone tMv wv05 7 effZero) effZero)).2.2
    (by decide) (by decide) rfl

/-- Effect counters of a completed `Resize` that grows past the capacity: the
relocation contributes `size` move- or copy-constructions per the trait
dispatch, and the appended value-initialized cells contribute neither move-
nor copy-constructions. -/
theorem Resize_grow_effs (orc : Nat → Bool) (t : Traits) (dflt : α) (v v1 : Vector α)
    (newSize : Nat) (e e1 : Eff) (hsc : v.size ≤ v.data.capacity)
    (hgt : v.data.capacity < newSize)
    (h : Vector.Resize orc t dflt v newSize e = VOut.ok v1 e1) :
    e1.mvc = e.mvc + (if t.useMove = true then v.size else 0) ∧
    e1.cpc = e.cpc + (if t.useMove = true then 0 else v.size) := by
  simp only [Vector.Resize] at h
  rw [if_pos (by omega : newSize > v.size)] at h
  split at h
  · rename_i v2 e2 hres
    split at h
    · rename_i m e3 hvc
      cases h
      obtain ⟨_, _, _, _, heff⟩ := Reserve_grow_ok orc t v v2 newSize e e2 hgt hres
      obtain ⟨a1, a2, a3, a4, a5⟩ := heff
      obtain ⟨_, _, heffv⟩ := uninitValueConstructN_ok orc t dflt _ _ _ _ _ _ hvc
      obtain ⟨b1, b2, b3, b4, b5⟩ := heffv
      constructor <;> omega
    · cases h
    · cases h
    · cases h
  · cases h
  · cases h
  · cases h

/-- C8: on every relocation path (`reserve`, growing `resize`, growing
`emplace_back`, growing `emplace`), relocation uses move-construction when
`T`'s move constructor is non-throwing or `T` has no copy constructor (no
copy-construction is performed), and copy-construction otherwise (no
move-construction is performed); the choice is the compile-time trait
dispatch `Traits.useMove`. -/
theorem claim_C8 (orc : Nat → Bool) (t : Traits) (dflt x : α) (v v1 v2 v3 v4 : Vector α)
    (n newSize offset : Nat) (e e1 e2 e3 e4 : Eff) (hsc : v.size ≤ v.data.capacity) :
    ((t.nothrowMove = true ∨ t.copyCtor = false) →
      (v.data.capacity < n → Vector.Reserve orc t v n e = VOut.ok v1 e1 →
        e1.mvc = e.mvc + v.size ∧ e1.cpc = e.cpc) ∧
      (v.data.capacity < newSize → Vector.Resize orc t dflt v newSize e = VOut.ok v2 e2 →
        e2.mvc = e.mvc + v.size ∧ e2.cpc = e.cpc) ∧
      (v.size = v.data.capacity → Vector.EmplaceBack orc t v x e = VOut.ok v3 e3 →
        e3.mvc = e.mvc + v.size ∧ e3.cpc = e.cpc) ∧
      (v.size = v.data.capacity → offset ≤ v.size →
        Vector.Emplace orc t v offset x e = VOut.ok v4 e4 →
        e4.mvc = e.mvc + v.size ∧ e4.cpc = e.cpc)) ∧
    (t.nothrowMove = false → t.copyCtor = true →
      (v.data.capacity < n → Vector.Reserve orc t v n e = VOut.ok v1 e1 →
        e1.cpc = e.cpc + v.size ∧ e1.mvc = e.mvc) ∧
      (v.data.capacity < newSize → Vector.Resize orc t dflt v newSize e = VOut.ok v2 e2 →
        e2.cpc = e.cpc + v.size ∧ e2.mvc = e.mvc) ∧
      (v.size = v.data.capacity → Vector.EmplaceBack orc t v x e = VOut.ok v3 e3 →
        e3.cpc = e.cpc + v.size ∧ e3.mvc = e.mvc) ∧
      (v.size = v.data.capacity → offset ≤ v.size →
        Vector.Emplace orc t v offset x e = VOut.ok v4 e4 →
        e4.cpc = e.cpc + v.size ∧ e4.mvc = e.mvc)) := by
  constructor
  · intro hdis
    have huse := Traits.useMove_true t hdis
    refine ⟨?_, ?_, ?_, ?_⟩
    · intro hgt h
      obtain ⟨_, _, _, _, heff⟩ := Reserve_grow_ok orc t v v1 n e e1 hgt h
      simp only [huse, if_pos] at heff
      obtain ⟨_, _, h3, h4, _⟩ := heff
      exact ⟨h3, by omega⟩
    · intro hgt h
      obtain ⟨h3, h4⟩ := Resize_grow_effs orc t dflt v v2 newSize e e2 hsc hgt h
      simp only [huse, if_pos] at h3 h4
      exact ⟨h3, by omega⟩
    · intro hg h
      obtain ⟨_, _, _, _, _, heff⟩ := EmplaceBack_grow_ok orc t v v3 x e e3 hg h
      simp only [huse, if_pos] at heff
      obtain ⟨_, _, h3, h4, _⟩ := heff
      exact ⟨h3, by omega⟩
    · intro hg hoff h
      obtain ⟨_, _, heff⟩ := Emplace_grow_ok orc t v v4 offset x e e4 hg hoff h
      simp only [huse, if_pos] at heff
      obtain ⟨_, _, h3, h4, _⟩ := heff
      exact ⟨h3, by omega⟩
  · intro hnm hcc
    have huse := Traits.useMove_false t hnm hcc
    refine ⟨?_, ?_, ?_, ?_⟩
    · intro hgt h
      obtain ⟨_, _, _, _, heff⟩ := Reserve_grow_ok orc t v v1 n e e1 hgt h
      simp only [huse, Bool.false_eq_true, if_false] at heff
      obtain ⟨_, _, h3, h4, _⟩ := heff
      exact ⟨h4, by omega⟩
    · intro hgt h
      obtain ⟨h3, h4⟩ := Resize_grow_effs orc t dflt v v2 newSize e e2 hsc hgt h
      simp only [huse, Bool.false_eq_true, if_false] at h3 h4
      exact ⟨h4, by omega⟩
    · intro hg h
      obtain ⟨_, _, _, _, _, heff⟩ := EmplaceBack_grow_ok orc t v v3 x e e3 hg h
      simp only [huse, Bool.false_eq_true, if_false] at heff
      obtain ⟨_, _, h3, h4, _⟩ := heff
      exact ⟨h4, by omega⟩
    · intro hg hoff h
      obtain ⟨_, _, heff⟩ := Emplace_grow_ok orc t v v4 offset x e e4 hg hoff h
      simp only [huse, Bool.false_eq_true, if_false] at heff
      obtain ⟨_, _, h3, h4, _⟩ := heff
      exact ⟨h4, by omega⟩

/-- Witness for C8: reserving 5 cells on the full two-element vector [1, 2]
performs 2 move-constructions and no copies for a `noexcept`-move type, and 2
copy-constructions and no moves for a throwing-move copyable type. -/
theorem claim_C8_witness :
    ((VOut.effD (Vector.Reserve orcNone tMv wv22 5 effZero) effZero).mvc =
        effZero.mvc + wv22.size ∧
      (VOut.effD (Vector.Reserve orcNone tMv wv22 5 effZero) effZero).cpc = effZero.cpc) ∧
    ((VOut.effD (Vector.Reserve orcNone tCp wv22 5 effZero) effZero).cpc =
        effZero.cpc + wv22.size ∧
      (VOut.effD (Vector.Reserve orcNone tCp wv22 5 effZero) effZero).mvc = effZero.mvc) :=
  ⟨((claim_C8 orcNone tMv 0 9 wv22
        (VOut.stateD (Vector.Reserve orcNone tMv wv22 5 effZero) wv22) wv22 wv22 wv22
        5 3 2 effZero
        (VOut.effD (Vector.Reserve orcNone tMv wv22 5 effZero) effZero)
        effZero effZero effZero (by decide)).1 (Or.inl rfl)).1 (by decide) rfl,
   ((claim_C8 orcNone tCp 0 9 wv22
        (VOut.stateD (Vector.Reserve orcNone tCp wv22 5 effZero) wv22) wv22 wv22 wv22
        5 3 2 effZero
        (VOut.effD (Vector.Reserve orcNone tCp wv22 5 effZero) effZero)
        effZero effZero effZero (by decide)).2 rfl rfl).1 (by decide) rfl⟩

/-- C10: for every non-empty vector, `PopBack` completes without
reallocating — capacity and allocation count unchanged, size decremented,
every cell other than the destroyed last one untouched.  For every valid
interior position, `Erase` likewise leaves the capacity and the allocation
count unchanged on its normal exit (and on a throwing exit of the shift);
only the element count and the element values change. -/
theorem claim_C10 (orc : Nat → Bool) (t : Traits) (v v1 : Vector α) (shift : Nat) (e e1 : Eff)
    (hL : Linv v) :
    (0 < v.size →
      ∃ v2 e2, Vector.PopBack v e = VOut.ok v2 e2 ∧
        v2.data.capacity = v.data.capacity ∧ e2.alloc = e.alloc ∧ v2.size = v.size - 1 ∧
        (∀ i, i ≠ v.size - 1 → v2.data.buffer i = v.data.buffer i)) ∧
    (shift < v.size →
      (Vector.Erase orc t v shift e = VOut.ok v1 e1 →
        v1.data.capacity = v.data.capacity ∧ e1.alloc = e.alloc ∧ v1.size = v.size - 1 ∧
        (∀ i, v.size ≤ i → v1.data.buffer i = v.data.buffer i)) ∧
      (Vector.Erase orc t v shift e = VOut.thrown (some v1) e1 →
        v1.data.capacity = v.data.capacity ∧ e1.alloc = e.alloc ∧ v1.size = v.size)) := by
  constructor
  · intro hpos
    obtain ⟨d1, e2, hd⟩ := destroyN_total 1 (v.size - 1) v.data.buffer e (fun j hj => by
      have hj0 : j = 0 := by omega
      subst hj0
      rw [Nat.add_zero]
      exact hL.2.1 (v.size - 1) (by omega))
    obtain ⟨hvals, hframe, heff⟩ := destroyN_ok 1 (v.size - 1) _ _ _ _ hd
    obtain ⟨a1, a2, a3, a4, a5⟩ := heff
    refine ⟨⟨⟨d1, v.data.capacity⟩, v.size - 1⟩, e2, ?_, rfl, by omega, rfl, ?_⟩
    · unfold Vector.PopBack
      rw [if_pos hpos, hd]
    · intro i hi
      exact hframe i (by omega)
  · intro hsh
    constructor
    · intro h
      unfold Vector.Erase at h
      split at h
      · rename_i m e2 hsm
        unfold stdMove at hsm
        rw [if_pos (by omega)] at hsm
        obtain ⟨hlivemap, hframe, heff⟩ :=
          moveAssignLoop_spec orc t (v.size - (shift + 1)) (shift + 1) shift _ _ _ _ (Or.inl hsm)
        obtain ⟨a1, a2, a3, a4, a5⟩ := heff
        simp only [Vector.PopBack] at h
        rw [if_pos (by omega : (0 : Nat) < v.size)] at h
        split at h
        · rename_i m3 e3 hdn
          cases h
          obtain ⟨hvals2, hframe2, heff2⟩ := destroyN_ok 1 (v.size - 1) _ _ _ _ hdn
          obtain ⟨b1, b2, b3, b4, b5⟩ := heff2
          refine ⟨rfl, by omega, rfl, ?_⟩
          intro i hi
          have h1 : m3 i = m i := hframe2 i (by omega)
          have h2 : m i = v.data.buffer i := hframe i (by omega)
          show m3 i = v.data.buffer i
          rw [h1, h2]
        · cases h
      · cases h
      · cases h
      · cases h
    · intro h
      unfold Vector.Erase at h
      split at h
      · simp only [Vector.PopBack] at h
        rw [if_pos (by omega : (0 : Nat) < v.size)] at h
        split at h
        · cases h
        · cases h
      · rename_i m e2 hsm
        cases h
        unfold stdMove at hsm
        rw [if_pos (by omega)] at hsm
        obtain ⟨hlivemap, hframe, heff⟩ :=
          moveAssignLoop_spec orc t (v.size - (shift + 1)) (shift + 1) shift _ _ _ _ (Or.inr hsm)
        obtain ⟨a1, a2, a3, a4, a5⟩ := heff
        exact ⟨rfl, by omega, rfl⟩
      · cases h
      · cases h

/-- Witness for C10: popping the vector [1, 2] (capacity 4) keeps capacity 4
and performs no allocation; erasing at offset 0 likewise. -/
theorem claim_C10_witness :
    (∃ v2 e2, Vector.PopBack wv24 effZero = VOut.ok v2 e2 ∧
      v2.data.capacity = wv24.data.capacity ∧ e2.alloc = effZero.alloc ∧
      v2.size = wv24.size - 1 ∧
      (∀ i, i ≠ wv24.size - 1 → v2.data.buffer i = wv24.data.buffer i)) ∧
    ((VOut.stateD (Vector.Erase orcNone tMv wv24 0 effZero) wv24).data.capacity =
        wv24.data.capacity ∧
      (VOut.effD (Vector.Erase orcNone tMv wv24 0 effZero) effZero).alloc = effZero.alloc ∧
      (VOut.stateD (Vector.Erase orcNone tMv wv24 0 effZero) wv24).size = wv24.size - 1 ∧
      (∀ i, wv24.size ≤ i →
        (VOut.stateD (Vector.Erase orcNone tMv wv24 0 effZero) wv24).data.buffer i =
          wv24.data.buffer i)) :=
  ⟨(claim_C10 orcNone tMv wv24 wv24 0 effZero effZero (by decide)).1 (by decide),
   ((claim_C10 orcNone tMv wv24
        (VOut.stateD (Vector.Erase orcNone tMv wv24 0 effZero) wv24) 0 effZero
        (VOut.effD (Vector.Erase orcNone tMv wv24 0 effZero) effZero) (by decide)).2
      (by decide)).1 rfl⟩

/-- C9: `Vector::Swap` exchanges the complete states of the two vectors —
buffer, capacity and size — and `RawMemory::Swap` exchanges buffer and
capacity.  Both are modelled as pure total functions: they consult no throw
oracle and carry no side-effect counters, mirroring the source's `noexcept`
member-wise swaps that construct, destroy, copy and move no element. -/
theorem claim_C9 (a b : Vector α) (x y : RawMemory α) :
    Vector.Swap a b = (b, a) ∧ RawMemory.Swap x y = (y, x) :=
  ⟨rfl, rfl⟩

end CV
